import Mathlib

/-!
Verification of the wb-packer protected-resource packaging pipeline.

Each definition is a shallow embedding of a function from the packager
source (`src/packager/packager.js` and friends).  Byte sequences are
modelled as `List Nat` with values `< 256` (JavaScript `Uint8Array`);
32-bit values are `Nat` with explicit `% 2 ^ 32` wherever JavaScript
performs int32/uint32 coercion.  External platform primitives
(SHA-256, AES-GCM, base64) are taken as parameters or elided where a
claim does not depend on their internals; every such spot is noted in
the doc comment of the definition concerned.
-/

namespace WbPacker

/-- All entries of a byte list are actual bytes. -/
def IsBytes (l : List Nat) : Prop := ∀ x ∈ l, x < 256

instance : DecidablePred IsBytes := fun l =>
  inferInstanceAs (Decidable (∀ x ∈ l, x < 256))

/-- Embedding of `xorCrypt(bytes, keyBytes, seed)`:
`out[i] = bytes[i] ^ keyBytes[(i + seed) % keyBytes.length] ^ seed`,
with the `Uint8Array` store truncating to a byte (`% 256`). -/
def xorCrypt (bytes keyBytes : List Nat) (seed : Nat) : List Nat :=
  (List.range bytes.length).map (fun i =>
    (bytes.getD i 0 ^^^ keyBytes.getD ((i + seed) % keyBytes.length) 0 ^^^ seed) % 256)

theorem xorCrypt_length (b k : List Nat) (s : Nat) :
    (xorCrypt b k s).length = b.length := by
  simp [xorCrypt]

theorem xor_lt_256 {x y : Nat} (hx : x < 256) (hy : y < 256) : x ^^^ y < 256 := by
  have h : Nat.bitwise bne x y < 2 ^ 8 := Nat.bitwise_lt (n := 8) hx hy
  simpa [HXor.hXor, Xor.xor, Nat.xor] using h

theorem xor_double_cancel (a K s : Nat) : (((a ^^^ K) ^^^ s) ^^^ K) ^^^ s = a := by
  rw [Nat.xor_assoc (a ^^^ K) s K, Nat.xor_comm s K, ← Nat.xor_assoc (a ^^^ K) K s,
    Nat.xor_cancel_right, Nat.xor_cancel_right]

theorem xorCrypt_getElem (b k : List Nat) (s n : Nat) (h : n < (xorCrypt b k s).length) :
    (xorCrypt b k s)[n] =
      (b.getD n 0 ^^^ k.getD ((n + s) % k.length) 0 ^^^ s) % 256 := by
  simp [xorCrypt]

/-- The key byte actually used at position `n` is a member of the key. -/
theorem keyByte_lt (k : List Nat) (hk : IsBytes k) (hk0 : k ≠ []) (m : Nat) :
    k.getD m 0 < 256 := by
  have hlen : 0 < k.length := List.length_pos.mpr hk0
  rcases Nat.lt_or_ge m k.length with hm | hm
  · rw [List.getD_eq_getElem k 0 hm]
    exact hk _ (List.getElem_mem hm)
  · rw [List.getD_eq_default k 0 hm]
    exact Nat.zero_lt_succ _

/-- Core helper: applying `xorCrypt` twice with identical key and seed is
the identity on byte lists. -/
theorem xorCrypt_xorCrypt (b k : List Nat) (s : Nat)
    (hb : IsBytes b) (hk : IsBytes k) (hs : s < 256) (hk0 : k ≠ []) :
    xorCrypt (xorCrypt b k s) k s = b := by
  apply List.ext_getElem
  · simp [xorCrypt]
  intro n h1 h2
  have hlen1 : (xorCrypt b k s).length = b.length := xorCrypt_length b k s
  have hn : n < b.length := h2
  have hKlt : k.getD ((n + s) % k.length) 0 < 256 := keyByte_lt k hk hk0 _
  have hblt : b.getD n 0 < 256 := by
    rw [List.getD_eq_getElem b 0 hn]
    exact hb _ (List.getElem_mem hn)
  have hinner : (xorCrypt b k s).getD n 0 =
      (b.getD n 0 ^^^ k.getD ((n + s) % k.length) 0 ^^^ s) % 256 := by
    have hn1 : n < (xorCrypt b k s).length := by rw [hlen1]; exact hn
    rw [List.getD_eq_getElem _ 0 hn1, xorCrypt_getElem]
  have hinner_lt : (b.getD n 0 ^^^ k.getD ((n + s) % k.length) 0 ^^^ s) < 256 :=
    xor_lt_256 (xor_lt_256 hblt hKlt) hs
  rw [xorCrypt_getElem _ _ _ _ h1, hinner, Nat.mod_eq_of_lt hinner_lt,
    xor_double_cancel, Nat.mod_eq_of_lt hblt, List.getD_eq_getElem b 0 hn]

/-- C2: for every byte sequence `b`, non-empty key byte sequence `k`, and
seed `s` in `[0,256)`, `xorCrypt (xorCrypt b k s) k s = b` (xorCrypt is
self-inverse under identical key and seed). -/
theorem claim_C2_xorCrypt_self_inverse (b k : List Nat) (s : Nat)
    (hb : IsBytes b) (hk : IsBytes k) (hk0 : k ≠ []) (hs : s < 256) :
    xorCrypt (xorCrypt b k s) k s = b :=
  xorCrypt_xorCrypt b k s hb hk hs hk0

theorem claim_C2_witness :
    xorCrypt (xorCrypt [1, 2, 3, 250] [7, 9, 11] 5) [7, 9, 11] 5 = [1, 2, 3, 250] :=
  claim_C2_xorCrypt_self_inverse [1, 2, 3, 250] [7, 9, 11] 5
    (by decide) (by decide) (by decide) (by decide)

/-- The loop body of `splitIntoShards`: iteration `i` (while `i < count`)
pushes `bytes.subarray(off, off + size)` with
`size = base + (i < rem ? 1 : 0)` and advances `off` by `size`. -/
def splitShardsGo (bytes : List Nat) (base rem count i off : Nat) : List (List Nat) :=
  if i < count then
    ((bytes.drop off).take (base + (if i < rem then 1 else 0))) ::
      splitShardsGo bytes base rem count (i + 1) (off + (base + (if i < rem then 1 else 0)))
  else []
termination_by count - i
decreasing_by omega

/-- Embedding of `splitIntoShards(bytes, count)`:
`base = floor(len / count)`, `rem = len % count`, loop over `i < count`. -/
def splitIntoShards (bytes : List Nat) (count : Nat) : List (List Nat) :=
  splitShardsGo bytes (bytes.length / count) (bytes.length % count) count 0 0

/-- Total number of bytes emitted by the loop from iteration `i` on. -/
def shardSizesFrom (base rem count i : Nat) : Nat :=
  if i < count then
    (base + (if i < rem then 1 else 0)) + shardSizesFrom base rem count (i + 1)
  else 0
termination_by count - i
decreasing_by omega

theorem shardSizesFrom_eq (base rem count : Nat) (hrem : rem ≤ count) :
    ∀ k i, count - i = k →
      shardSizesFrom base rem count i = (count - i) * base + (rem - min i rem) := by
  intro k
  induction k with
  | zero =>
    intro i hi
    rw [shardSizesFrom]
    have hic : ¬ i < count := by omega
    rw [if_neg hic]
    have h0 : count - i = 0 := by omega
    have h1 : min i rem = rem := by omega
    rw [h0, h1]
    simp
  | succ k ih =>
    intro i hi
    rw [shardSizesFrom]
    have hic : i < count := by omega
    rw [if_pos hic, ih (i + 1) (by omega)]
    rcases Nat.lt_or_ge i rem with hir | hir
    · rw [if_pos hir]
      have h1 : min i rem = i := by omega
      have h2 : min (i + 1) rem = i + 1 := by omega
      rw [h1, h2]
      have : count - i = (count - (i + 1)) + 1 := by omega
      rw [this]
      ring_nf
      omega
    · rw [if_neg (by omega)]
      have h1 : min i rem = rem := by omega
      have h2 : min (i + 1) rem = rem := by omega
      rw [h1, h2]
      have : count - i = (count - (i + 1)) + 1 := by omega
      rw [this]
      ring_nf

theorem shardSizesFrom_zero (len count : Nat) (hc : 0 < count) :
    shardSizesFrom (len / count) (len % count) count 0 = len := by
  have hrem : len % count ≤ count := Nat.le_of_lt (Nat.mod_lt _ hc)
  rw [shardSizesFrom_eq _ _ _ hrem (count - 0) 0 rfl]
  simp only [Nat.sub_zero, Nat.min_zero, Nat.zero_min]
  have := Nat.div_add_mod len count
  calc count * (len / count) + (len % count - 0) = count * (len / count) + len % count := by omega
    _ = len := this

theorem splitShardsGo_length (bytes : List Nat) (base rem count : Nat) :
    ∀ k i off, count - i = k → (splitShardsGo bytes base rem count i off).length = count - i := by
  intro k
  induction k with
  | zero =>
    intro i off hi
    rw [splitShardsGo, if_neg (by omega)]
    simp
    omega
  | succ k ih =>
    intro i off hi
    rw [splitShardsGo, if_pos (by omega)]
    simp only [List.length_cons, ih (i + 1) _ (by omega)]
    omega

theorem splitShardsGo_flatten (bytes : List Nat) (base rem count : Nat) :
    ∀ k i off, count - i = k →
      (splitShardsGo bytes base rem count i off).flatten =
        (bytes.drop off).take (shardSizesFrom base rem count i) := by
  intro k
  induction k with
  | zero =>
    intro i off hi
    have hnc : ¬ i < count := by omega
    rw [splitShardsGo, if_neg hnc, shardSizesFrom, if_neg hnc]
    simp
  | succ k ih =>
    intro i off hi
    have hic : i < count := by omega
    rw [splitShardsGo, if_pos hic, shardSizesFrom, if_pos hic]
    rw [List.flatten_cons, ih (i + 1) _ (by omega)]
    conv_rhs => rw [List.take_add]
    congr 1
    rw [List.drop_drop]

theorem splitShardsGo_getD_length (bytes : List Nat) (base rem count : Nat) :
    ∀ k i off t, count - i = k → t < count - i →
      off + shardSizesFrom base rem count i ≤ bytes.length →
      ((splitShardsGo bytes base rem count i off).getD t []).length =
        base + (if i + t < rem then 1 else 0) := by
  intro k
  induction k with
  | zero =>
    intro i off t hi ht hoff
    exact absurd ht (by omega)
  | succ k ih =>
    intro i off t hi ht hoff
    rw [splitShardsGo, if_pos (by omega)]
    have hsz : shardSizesFrom base rem count i =
        (base + (if i < rem then 1 else 0)) + shardSizesFrom base rem count (i + 1) := by
      rw [shardSizesFrom, if_pos (by omega)]
    match t with
    | 0 =>
      simp only [List.getD_cons_zero, Nat.add_zero]
      rw [List.length_take, List.length_drop]
      omega
    | Nat.succ t1 =>
      simp only [List.getD_cons_succ]
      rw [ih (i + 1) _ t1 (by omega) (by omega) (by omega)]
      have harith : i + 1 + t1 = i + (t1 + 1) := by omega
      rw [harith]

theorem splitShardsGo_subset (bytes : List Nat) (base rem count : Nat) :
    ∀ k i off, count - i = k →
      ∀ sh ∈ splitShardsGo bytes base rem count i off, ∀ x ∈ sh, x ∈ bytes := by
  intro k
  induction k with
  | zero =>
    intro i off hi sh hsh
    rw [splitShardsGo, if_neg (by omega)] at hsh
    exact absurd hsh (List.not_mem_nil sh)
  | succ k ih =>
    intro i off hi sh hsh
    have hic : i < count := by omega
    rw [splitShardsGo, if_pos hic] at hsh
    rcases List.mem_cons.mp hsh with hhead | htail
    · intro x hx
      subst hhead
      exact List.drop_subset off bytes (List.take_subset _ _ hx)
    · exact ih (i + 1) _ (by omega) sh htail

theorem splitIntoShards_length (bytes : List Nat) (count : Nat) :
    (splitIntoShards bytes count).length = count := by
  unfold splitIntoShards
  rw [splitShardsGo_length bytes _ _ count (count - 0) 0 0 rfl]
  omega

/-- C5: `splitIntoShards b n` (for `1 ≤ n ≤ b.length`) returns `n`
contiguous shards whose concatenation reproduces `b`; shard `i` has
length `floor(len/n)` plus one extra byte iff `i < len % n`; any two
shard lengths differ by at most 1. -/
theorem claim_C5_splitIntoShards_roundtrip (b : List Nat) (n : Nat)
    (hn : 1 ≤ n) (hnb : n ≤ b.length) :
    (splitIntoShards b n).length = n ∧
    (splitIntoShards b n).flatten = b ∧
    (∀ i, i < n → ((splitIntoShards b n).getD i []).length =
      b.length / n + (if i < b.length % n then 1 else 0)) ∧
    (∀ i j, i < n → j < n →
      ((splitIntoShards b n).getD i []).length ≤
        ((splitIntoShards b n).getD j []).length + 1) := by
  have hc : 0 < n := hn
  have hzero : shardSizesFrom (b.length / n) (b.length % n) n 0 = b.length :=
    shardSizesFrom_zero b.length n hc
  have hlens : ∀ i, i < n → ((splitIntoShards b n).getD i []).length =
      b.length / n + (if i < b.length % n then 1 else 0) := by
    intro i hi
    unfold splitIntoShards
    rw [splitShardsGo_getD_length b _ _ n (n - 0) 0 0 i rfl (by omega) (by omega),
      Nat.zero_add]
  refine ⟨?_, ?_, hlens, ?_⟩
  · unfold splitIntoShards
    rw [splitShardsGo_length b _ _ n (n - 0) 0 0 rfl]
    omega
  · unfold splitIntoShards
    rw [splitShardsGo_flatten b _ _ n (n - 0) 0 0 rfl, List.drop_zero, hzero, List.take_length]
  · intro i j hi hj
    rw [hlens i hi, hlens j hj]
    split_ifs <;> omega

theorem claim_C5_witness :
    (splitIntoShards [10, 20, 30, 40, 50, 60, 70, 80] 3).length = 3 ∧
    (splitIntoShards [10, 20, 30, 40, 50, 60, 70, 80] 3).flatten =
      [10, 20, 30, 40, 50, 60, 70, 80] ∧
    (∀ i, i < 3 → ((splitIntoShards [10, 20, 30, 40, 50, 60, 70, 80] 3).getD i []).length =
      [10, 20, 30, 40, 50, 60, 70, 80].length / 3 +
        (if i < [10, 20, 30, 40, 50, 60, 70, 80].length % 3 then 1 else 0)) ∧
    (∀ i j, i < 3 → j < 3 →
      ((splitIntoShards [10, 20, 30, 40, 50, 60, 70, 80] 3).getD i []).length ≤
        ((splitIntoShards [10, 20, 30, 40, 50, 60, 70, 80] 3).getD j []).length + 1) :=
  claim_C5_splitIntoShards_roundtrip [10, 20, 30, 40, 50, 60, 70, 80] 3
    (by decide) (by decide)

/-- Setting an index to the value already there is the identity. -/
theorem set_getD_self (l : List Nat) (i : Nat) (d : Nat) (h : i < l.length) :
    l.set i (l.getD i d) = l := by
  apply List.ext_getElem (by simp)
  intro k h1 h2
  rw [List.getElem_set]
  split
  · subst k
    rw [List.getD_eq_getElem l d h]
  · rfl

/-- Exchanging the entries at positions `j ≤ i` (the Fisher-Yates swap
`tmp = a[i]; a[i] = a[j]; a[j] = tmp`) permutes the list. -/
theorem swap_set_perm (l : List Nat) (i j : Nat) (d : Nat)
    (hj : j ≤ i) (hi : i < l.length) :
    ((l.set i (l.getD j d)).set j (l.getD i d)).Perm l := by
  have hjl : j < l.length := Nat.lt_of_le_of_lt hj hi
  rcases Nat.eq_or_lt_of_le hj with rfl | hlt
  · rw [List.set_set, set_getD_self l j d hjl]
  · have hB : (j + 1) + (i - j - 1) = i := by omega
    have hdecomp : l = l.take j ++ l.getD j d ::
        (List.take (i - j - 1) (l.drop (j + 1)) ++ l.getD i d :: l.drop (i + 1)) := by
      rw [List.getD_eq_getElem l d hjl, List.getD_eq_getElem l d hi]
      conv_lhs => rw [← List.take_append_drop j l]
      rw [List.drop_eq_getElem_cons hjl]
      congr 1
      congr 1
      conv_lhs => rw [← List.take_append_drop (i - j - 1) (l.drop (j + 1))]
      rw [List.drop_drop, hB, List.drop_eq_getElem_cons hi]
    have hswap : (l.set i (l.getD j d)).set j (l.getD i d) =
        l.take j ++ l.getD i d ::
          (List.take (i - j - 1) (l.drop (j + 1)) ++ l.getD j d :: l.drop (i + 1)) := by
      rw [List.set_eq_take_append_cons_drop (l := l) (n := i)]
      simp only [hi, if_pos]
      rw [List.set_eq_take_append_cons_drop]
      have hlen : j < (l.take i ++ l.getD j d :: l.drop (i + 1)).length := by
        simp
        omega
      rw [if_pos hlen]
      have htk : List.take j (List.take i l ++ l.getD j d :: List.drop (i + 1) l) =
          List.take j l := by
        rw [List.take_append_eq_append_take]
        have h0 : j - (List.take i l).length = 0 := by simp; omega
        rw [h0, List.take_take]
        simp [Nat.min_eq_left (Nat.le_of_lt hlt)]
      have hdr : List.drop (j + 1) (List.take i l ++ l.getD j d :: List.drop (i + 1) l) =
          List.take (i - j - 1) (l.drop (j + 1)) ++ l.getD j d :: List.drop (i + 1) l := by
        rw [List.drop_append_eq_append_drop]
        have h0 : (j + 1) - (List.take i l).length = 0 := by simp; omega
        rw [h0, List.drop_take]
        rfl
      rw [htk, hdr]
    rw [hswap]
    conv_rhs => rw [hdecomp]
    apply List.Perm.append_left
    exact (List.Perm.cons _ List.perm_middle).trans
      ((List.Perm.swap _ _ _).trans (List.Perm.cons _ List.perm_middle.symm))

/-- Embedding of `xorshift32(x)`: `x ^= x << 13; x ^= x >>> 17; x ^= x << 5`
on JavaScript 32-bit values.  For `x < 2 ^ 32` the int32/uint32 bit patterns
coincide with plain naturals masked by `% 2 ^ 32`; shifts become `* 2 ^ k
% 2 ^ 32` and `/ 2 ^ k`. -/
def xorshift32 (x : Nat) : Nat :=
  let x1 := x ^^^ (x * 2 ^ 13 % 2 ^ 32)
  let x2 := x1 ^^^ (x1 / 2 ^ 17)
  x2 ^^^ (x2 * 2 ^ 5 % 2 ^ 32)

/-- The Fisher-Yates loop of `shuffledIndices`: for `i` from `count - 1`
down to `1`, advance the state with `xorshift32`, pick `j = s % (i + 1)`,
and swap `indices[i]` with `indices[j]`. -/
def shuffleGo (indices : List Nat) (s : Nat) : Nat → List Nat
  | 0 => indices
  | k + 1 =>
    let s2 := xorshift32 s
    let j := s2 % (k + 1 + 1)
    shuffleGo ((indices.set (k + 1) (indices.getD j 0)).set j (indices.getD (k + 1) 0)) s2 k

/-- Embedding of `shuffledIndices(count, seed)`: start from the identity
permutation `[0 .. count)` and apply the seeded Fisher-Yates loop
(`s = seed >>> 0` is `seed % 2 ^ 32`). -/
def shuffledIndices (count seed : Nat) : List Nat :=
  shuffleGo (List.range count) (seed % 2 ^ 32) (count - 1)

theorem shuffleGo_perm (s : Nat) :
    ∀ i indices, i < indices.length → (shuffleGo indices s i).Perm indices := by
  intro i
  induction i generalizing s with
  | zero =>
    intro indices _
    exact List.Perm.refl indices
  | succ k ih =>
    intro indices hi
    rw [shuffleGo]
    have hj : xorshift32 s % (k + 1 + 1) ≤ k + 1 := by
      have := Nat.mod_lt (xorshift32 s) (y := k + 1 + 1) (by omega)
      omega
    have hswap := swap_set_perm indices (k + 1) (xorshift32 s % (k + 1 + 1)) 0 hj hi
    have hlen : k < ((indices.set (k + 1)
        (indices.getD (xorshift32 s % (k + 1 + 1)) 0)).set (xorshift32 s % (k + 1 + 1))
        (indices.getD (k + 1) 0)).length := by
      simp only [List.length_set]
      omega
    exact (ih (xorshift32 s) _ hlen).trans hswap

theorem shuffledIndices_perm (count seed : Nat) :
    (shuffledIndices count seed).Perm (List.range count) := by
  unfold shuffledIndices
  match count with
  | 0 => exact List.Perm.refl _
  | c + 1 =>
    apply shuffleGo_perm
    simp

theorem shuffledIndices_length (count seed : Nat) :
    (shuffledIndices count seed).length = count := by
  rw [(shuffledIndices_perm count seed).length_eq, List.length_range]

theorem shuffledIndices_nodup (count seed : Nat) :
    (shuffledIndices count seed).Nodup :=
  ((shuffledIndices_perm count seed).symm).nodup (List.nodup_range count)

theorem shuffledIndices_mem_lt (count seed : Nat) :
    ∀ x ∈ shuffledIndices count seed, x < count := by
  intro x hx
  exact List.mem_range.mp ((shuffledIndices_perm count seed).mem_iff.mp hx)

/-- Embedding of `shardSeed(keyBytes, ivBytes, label)`.  The external
SHA-256 primitive (`sha.js`) is the parameter `digest`; sequential
`hash.update` calls over key, iv and the UTF-8 label bytes digest their
concatenation.  The JavaScript
`((d[0] << 24) | (d[1] << 16) | (d[2] << 8) | d[3]) >>> 0` builds the
big-endian uint32 of the first four digest bytes; for byte-valued `d`
that int32-or-then-reinterpret equals this natural-number `|||`. -/
def shardSeed (digest : List Nat → List Nat) (keyBytes ivBytes label : List Nat) : Nat :=
  let d := digest (keyBytes ++ ivBytes ++ label)
  ((d.getD 0 0) <<< 24) ||| ((d.getD 1 0) <<< 16) ||| ((d.getD 2 0) <<< 8) ||| d.getD 3 0

/-- UTF-8 bytes of the label `"wb-res:" + String(projectId || '')`;
`projectId` is already the UTF-8 byte list of the id string. -/
def wbResLabel (projectId : List Nat) : List Nat :=
  [119, 98, 45, 114, 101, 115, 58] ++ projectId

/-- The resource-pack metadata of `buildXorResourcePackMeta`.  `salt` and
the shard entries of `parts` are stored base64-encoded in the JavaScript
object (`bytesToBase64` / `atob` are an external inverse pair); the model
keeps the raw byte lists. -/
structure XorPackMeta where
  v : Nat
  salt : List Nat
  order : List Nat
  parts : List (List Nat)

/-- Embedding of `buildXorResourcePackMeta(projectId, keyBytes, saltBytes,
partCount)`: split the key into `partCount` shards, derive the shuffle
seed from `(keyBytes, saltBytes, "wb-res:" + projectId)`, obfuscate the
logical shard `i` with `xorCrypt(shards[i], saltBytes, i & 0xff)` and
store it at physical slot `order[i]`.  The JavaScript `Array(partCount)`
starts with empty holes; the model starts from `replicate partCount []`
(every slot is written exactly once since `order` is a permutation). -/
def buildXorResourcePackMeta (digest : List Nat → List Nat) (projectId : List Nat)
    (keyBytes saltBytes : List Nat) (partCount : Nat) : XorPackMeta :=
  let shards := splitIntoShards keyBytes partCount
  let seed := shardSeed digest keyBytes saltBytes (wbResLabel projectId)
  let order := shuffledIndices partCount seed
  let parts := (List.range partCount).foldl
    (fun ps i => ps.set (order.getD i 0) (xorCrypt (shards.getD i []) saltBytes (i % 256)))
    (List.replicate partCount [])
  { v := 1, salt := saltBytes, order := order, parts := parts }

/-- The reconstruction procedure of the claim (and of the repository's
`xor-resource-pack.test.js`): read shard `i` as `parts[order[i]]`,
XOR-decrypt with `(salt, i & 0xff)`, concatenate in logical order. -/
def reconstructPackKey (meta : XorPackMeta) (n : Nat) : List Nat :=
  ((List.range n).map (fun i =>
    xorCrypt (meta.parts.getD (meta.order.getD i 0) []) meta.salt (i % 256))).flatten

theorem foldl_set_length (g : Nat → List Nat) (ord : List Nat) :
    ∀ (l : List Nat) (init : List (List Nat)),
      (l.foldl (fun ps t => ps.set (ord.getD t 0) (g t)) init).length = init.length := by
  intro l
  induction l with
  | nil => intro init; rfl
  | cons a l ih =>
    intro init
    rw [List.foldl_cons, ih, List.length_set]

theorem foldl_set_range_getD (g : Nat → List Nat) (ord : List Nat) (n : Nat)
    (hlen : ord.length = n) (hnodup : ord.Nodup) (hbound : ∀ x ∈ ord, x < n) :
    ∀ m, m ≤ n → ∀ i, i < m →
      (((List.range m).foldl (fun ps t => ps.set (ord.getD t 0) (g t))
        (List.replicate n []))).getD (ord.getD i 0) [] = g i := by
  intro m
  induction m with
  | zero =>
    intro _ i hi
    omega
  | succ m ih =>
    intro hm i hi
    rw [List.range_succ, List.foldl_append, List.foldl_cons, List.foldl_nil]
    have hfoldlen : ((List.range m).foldl (fun ps t => ps.set (ord.getD t 0) (g t))
        (List.replicate n [])).length = n := by
      rw [foldl_set_length, List.length_replicate]
    have hgd : ∀ t, t < n → ord.getD t 0 < n := by
      intro t ht
      have htl : t < ord.length := by omega
      rw [List.getD_eq_getElem ord 0 htl]
      exact hbound _ (List.getElem_mem htl)
    have hset_len : (((List.range m).foldl (fun ps t => ps.set (ord.getD t 0) (g t))
        (List.replicate n [])).set (ord.getD m 0) (g m)).length = n := by
      rw [List.length_set, hfoldlen]
    have hidx : ord.getD i 0 < n := hgd i (by omega)
    rw [List.getD_eq_getElem _ [] (by rw [hset_len]; exact hidx)]
    rw [List.getElem_set]
    by_cases heq : ord.getD m 0 = ord.getD i 0
    · rw [if_pos heq]
      have hmi : m = i := by
        have hml : m < ord.length := by omega
        have hil : i < ord.length := by omega
        rw [List.getD_eq_getElem ord 0 hml, List.getD_eq_getElem ord 0 hil] at heq
        exact (List.Nodup.getElem_inj_iff hnodup).mp heq
      rw [hmi]
    · rw [if_neg heq]
      have hi2 : i < m := by
        rcases Nat.lt_or_ge i m with h | h
        · exact h
        · exfalso
          have : i = m := by omega
          subst this
          exact heq rfl
      have := ih (by omega) i hi2
      rw [List.getD_eq_getElem _ [] (by rw [hfoldlen]; exact hidx)] at this
      exact this

theorem splitIntoShards_flatten (bytes : List Nat) (count : Nat) (hc : 0 < count) :
    (splitIntoShards bytes count).flatten = bytes := by
  unfold splitIntoShards
  rw [splitShardsGo_flatten bytes _ _ count (count - 0) 0 0 rfl, List.drop_zero,
    shardSizesFrom_zero bytes.length count hc, List.take_length]

theorem map_getD_range (l : List (List Nat)) :
    (List.range l.length).map (fun i => l.getD i []) = l := by
  apply List.ext_getElem (by simp)
  intro k h1 h2
  simp only [List.getElem_map, List.getElem_range]
  rw [List.getD_eq_getElem l [] h2]

/-- C3: reconstructing the key from `buildXorResourcePackMeta` by reading
shard `i` as `parts[order[i]]`, XOR-decrypting with `(salt, i & 0xff)` and
concatenating in logical order yields the original key bytes, for every
digest function, id, byte-valued key, non-empty byte-valued salt, and
part count `n ≥ 1`. -/
theorem claim_C3_pack_key_reconstruction (digest : List Nat → List Nat)
    (projectId keyBytes saltBytes : List Nat) (n : Nat)
    (hkey : IsBytes keyBytes) (hsalt : IsBytes saltBytes) (hsalt0 : saltBytes ≠ [])
    (hn : 1 ≤ n) :
    reconstructPackKey (buildXorResourcePackMeta digest projectId keyBytes saltBytes n) n =
      keyBytes := by
  unfold reconstructPackKey buildXorResourcePackMeta
  simp only
  set shards := splitIntoShards keyBytes n with hshards
  set seed := shardSeed digest keyBytes saltBytes (wbResLabel projectId) with hseed
  set order := shuffledIndices n seed with horder
  have hordlen : order.length = n := shuffledIndices_length n seed
  have hordnodup : order.Nodup := shuffledIndices_nodup n seed
  have hordmem : ∀ x ∈ order, x < n := shuffledIndices_mem_lt n seed
  have hshardslen : shards.length = n := splitIntoShards_length keyBytes n
  have hparts : ∀ i, i < n →
      (((List.range n).foldl
          (fun ps i => ps.set (order.getD i 0) (xorCrypt (shards.getD i []) saltBytes (i % 256)))
          (List.replicate n [])).getD (order.getD i 0) []) =
        xorCrypt (shards.getD i []) saltBytes (i % 256) := by
    intro i hi
    exact foldl_set_range_getD _ order n hordlen hordnodup hordmem n (Nat.le_refl n) i hi
  have hmap : (List.range n).map (fun i =>
        xorCrypt (((List.range n).foldl
            (fun ps i => ps.set (order.getD i 0)
              (xorCrypt (shards.getD i []) saltBytes (i % 256)))
            (List.replicate n [])).getD (order.getD i 0) []) saltBytes (i % 256)) =
      (List.range n).map (fun i => shards.getD i []) := by
    apply List.map_congr_left
    intro i hi
    have hin : i < n := List.mem_range.mp hi
    rw [hparts i hin]
    apply xorCrypt_xorCrypt
    · intro x hx
      rcases Nat.lt_or_ge i n with hi2 | hi2
      · have hi3 : i < shards.length := by omega
        rw [List.getD_eq_getElem shards [] hi3] at hx
        have hmem := List.getElem_mem hi3
        have hsub : x ∈ keyBytes := by
          apply splitShardsGo_subset keyBytes _ _ n (n - 0) 0 0 rfl _ hmem x hx
        exact hkey x hsub
      · omega
    · exact hsalt
    · exact Nat.mod_lt i (by omega)
    · exact hsalt0
  rw [hmap]
  have : (List.range n).map (fun i => shards.getD i []) = shards := by
    rw [← hshardslen]
    exact map_getD_range shards
  rw [this]
  exact splitIntoShards_flatten keyBytes n (by omega)

theorem claim_C3_witness :
    reconstructPackKey
      (buildXorResourcePackMeta (fun _ => [0, 0, 0, 1]) [112]
        [5, 17, 29, 200, 3, 77, 254, 9] [31, 8] 3) 3 =
      [5, 17, 29, 200, 3, 77, 254, 9] :=
  claim_C3_pack_key_reconstruction (fun _ => [0, 0, 0, 1]) [112]
    [5, 17, 29, 200, 3, 77, 254, 9] [31, 8] 3
    (by decide) (by decide) (by decide) (by decide)

theorem getD_bytes_lt (l : List Nat) (hl : IsBytes l) (m : Nat) : l.getD m 0 < 256 := by
  rcases Nat.lt_or_ge m l.length with hm | hm
  · rw [List.getD_eq_getElem l 0 hm]
    exact hl _ (List.getElem_mem hm)
  · rw [List.getD_eq_default l 0 hm]
    omega

/-- Oring a shifted value with anything below the shift width is addition. -/
theorem lor_mul_pow_add : ∀ (k x y : Nat), y < 2 ^ k → (x * 2 ^ k) ||| y = x * 2 ^ k + y := by
  intro k
  induction k with
  | zero =>
    intro x y hy
    have : y = 0 := by omega
    subst this
    simp
  | succ k ih =>
    intro x y hy
    have hx : x * 2 ^ (k + 1) = Nat.bit false (x * 2 ^ k) := by
      rw [Nat.bit_val]
      simp [Bool.toNat]
      ring
    have hydec : y = Nat.bit y.bodd y.div2 := (Nat.bit_decomp y).symm
    rw [hx]
    conv_lhs => rw [hydec]
    rw [Nat.lor_bit]
    have hdiv : y.div2 < 2 ^ k := by
      have h2 : y.div2 = y / 2 := Nat.div2_val y
      have := Nat.pow_succ 2 k
      omega
    rw [Bool.false_or, ih x y.div2 hdiv]
    rw [Nat.bit_val]
    have hb : y = 2 * y.div2 + y.bodd.toNat := by
      have h1 := Nat.bit_decomp y
      rw [Nat.bit_val] at h1
      omega
    have hbf : Nat.bit false (x * 2 ^ k) = 2 * (x * 2 ^ k) := by
      rw [Nat.bit_val]
      simp
    omega

/-- The int32 `|`-assembled big-endian word of four bytes equals the
arithmetic big-endian value. -/
theorem be_bytes_lor_eq (a b c d : Nat)
    (ha : a < 256) (hb : b < 256) (hc : c < 256) (hd : d < 256) :
    (a <<< 24) ||| (b <<< 16) ||| (c <<< 8) ||| d =
      a * 2 ^ 24 + b * 2 ^ 16 + c * 2 ^ 8 + d := by
  rw [Nat.shiftLeft_eq, Nat.shiftLeft_eq, Nat.shiftLeft_eq]
  have h1 : a * 2 ^ 24 ||| b * 2 ^ 16 = a * 2 ^ 24 + b * 2 ^ 16 := by
    apply lor_mul_pow_add 24 a (b * 2 ^ 16)
    omega
  rw [h1]
  have h2 : a * 2 ^ 24 + b * 2 ^ 16 = (a * 2 ^ 8 + b) * 2 ^ 16 := by ring
  have h3 : (a * 2 ^ 8 + b) * 2 ^ 16 ||| c * 2 ^ 8 = (a * 2 ^ 8 + b) * 2 ^ 16 + c * 2 ^ 8 := by
    apply lor_mul_pow_add 16 _ (c * 2 ^ 8)
    omega
  rw [h2, h3]
  have h4 : (a * 2 ^ 8 + b) * 2 ^ 16 + c * 2 ^ 8 = (a * 2 ^ 16 + b * 2 ^ 8 + c) * 2 ^ 8 := by
    ring
  rw [h4, lor_mul_pow_add 8 _ d hd]
  try ring

/-- The runtime unpacker's own copy of `xorshift32` (generated
`computeShardOrder`, kept as a separate definition because the claim is
about the equivalence of the two implementations). -/
def rtXorshift32 (x : Nat) : Nat :=
  let x1 := x ^^^ (x * 2 ^ 13 % 2 ^ 32)
  let x2 := x1 ^^^ (x1 / 2 ^ 17)
  x2 ^^^ (x2 * 2 ^ 5 % 2 ^ 32)

/-- The runtime unpacker's own Fisher-Yates loop (generated
`computeShardOrder`). -/
def rtShuffleGo (order : List Nat) (s : Nat) : Nat → List Nat
  | 0 => order
  | k + 1 =>
    let s2 := rtXorshift32 s
    let j := s2 % (k + 1 + 1)
    rtShuffleGo ((order.set (k + 1) (order.getD j 0)).set j (order.getD (k + 1) 0)) s2 k

/-- Embedding of the generated runtime `computeShardOrder(keyBytes,
ivBytes, label, parts)`: SHA-256 (the `digest` parameter, assumed
available) over `key ‖ iv ‖ utf8(label)`, seed from
`DataView.getUint32(0, false)` (big-endian read of the first four digest
bytes), then the same seeded Fisher-Yates over `[0 .. parts)`. -/
def computeShardOrder (digest : List Nat → List Nat)
    (keyBytes ivBytes label : List Nat) (parts : Nat) : List Nat :=
  let combined := keyBytes ++ ivBytes ++ label
  let d := digest combined
  let seed := d.getD 0 0 * 2 ^ 24 + d.getD 1 0 * 2 ^ 16 + d.getD 2 0 * 2 ^ 8 + d.getD 3 0
  rtShuffleGo (List.range parts) (seed % 2 ^ 32) (parts - 1)

theorem rtXorshift32_eq (x : Nat) : rtXorshift32 x = xorshift32 x := rfl

theorem rtShuffleGo_eq : ∀ (i : Nat) (order : List Nat) (s : Nat),
    rtShuffleGo order s i = shuffleGo order s i := by
  intro i
  induction i with
  | zero =>
    intro order s
    rfl
  | succ k ih =>
    intro order s
    rw [rtShuffleGo, shuffleGo]
    simp only [rtXorshift32_eq]
    exact ih _ _

/-- C4: the build-time shard-order derivation (`shardSeed` +
`shuffledIndices`) and the runtime re-derivation (`computeShardOrder` in
the generated unpacker) are equivalent functions, for every byte-valued
digest function and all key, iv, label and part-count inputs. -/
theorem claim_C4_shard_order_equivalence (digest : List Nat → List Nat)
    (hdigest : ∀ bs, IsBytes (digest bs))
    (keyBytes ivBytes label : List Nat) (n : Nat) :
    computeShardOrder digest keyBytes ivBytes label n =
      shuffledIndices n (shardSeed digest keyBytes ivBytes label) := by
  unfold computeShardOrder shuffledIndices shardSeed
  rw [rtShuffleGo_eq]
  have hd := hdigest (keyBytes ++ ivBytes ++ label)
  congr 2
  exact (be_bytes_lor_eq _ _ _ _
    (getD_bytes_lt _ hd 0) (getD_bytes_lt _ hd 1)
    (getD_bytes_lt _ hd 2) (getD_bytes_lt _ hd 3)).symm

theorem claim_C4_witness :
    computeShardOrder (fun _ => [1, 2, 3, 4]) [9, 9] [7] [119, 98] 5 =
      shuffledIndices 5 (shardSeed (fun _ => [1, 2, 3, 4]) [9, 9] [7] [119, 98]) :=
  claim_C4_shard_order_equivalence (fun _ => [1, 2, 3, 4])
    (fun _ => show IsBytes [1, 2, 3, 4] by decide) [9, 9] [7] [119, 98] 5

/-- `DataView.setUint32(off, i, true)` byte image: the four bytes written
are the little-endian encoding of `ToUint32(i) = i % 2 ^ 32`. -/
def u32le (i : Nat) : List Nat :=
  [i % 256, i / 2 ^ 8 % 256, i / 2 ^ 16 % 256, i / 2 ^ 24 % 256]

/-- The spec's words: the 4-byte big-endian encoding of `i` (used only to
state the original claim, which the code falsifies). -/
def u32be (i : Nat) : List Nat :=
  [i / 2 ^ 24 % 256, i / 2 ^ 16 % 256, i / 2 ^ 8 % 256, i % 256]

/-- `TypedArray.set(src, off)` / `DataView` write: splice `src` into `arr`
at offset `off` (in-bounds writes only, as in the source). -/
def setBytes (arr : List Nat) (off : Nat) (src : List Nat) : List Nat :=
  arr.take off ++ src ++ arr.drop (off + src.length)

/-- Embedding of the build-time chunk IV construction in
`Packager.package` (inner chunk encryption loop):
`iv = new Uint8Array(12); iv.set(innerProjectIvBase, 0);
new DataView(iv.buffer).setUint32(8, i, true)`. -/
def buildChunkIV (ivBase : List Nat) (i : Nat) : List Nat :=
  setBytes (setBytes (List.replicate 12 0) 0 ivBase) 8 (u32le i)

/-- Embedding of the runtime chunk IV construction in the generated
`decryptProjectJSON`:
`iv = new Uint8Array(12); iv.set(state.projectIvBase, 0);
new DataView(iv.buffer).setUint32(8, i, true)` (kept separate from
`buildChunkIV` because the claim compares the two sites). -/
def rtChunkIV (ivBase : List Nat) (i : Nat) : List Nat :=
  setBytes (setBytes (List.replicate 12 0) 0 ivBase) 8 (u32le i)

theorem setBytes_chunkIV (ivBase : List Nat) (i : Nat) (h : ivBase.length = 8) :
    setBytes (setBytes (List.replicate 12 0) 0 ivBase) 8 (u32le i) =
      ivBase ++ u32le i := by
  unfold setBytes
  rw [List.take_zero, List.nil_append]
  have hdrop : (List.replicate 12 (0 : Nat)).drop (0 + ivBase.length) =
      List.replicate 4 0 := by
    rw [h]
    rfl
  rw [hdrop]
  have hlen4 : (u32le i).length = 4 := rfl
  have htake : (ivBase ++ List.replicate 4 (0 : Nat)).take 8 = ivBase := by
    have h8 : (8 : Nat) = ivBase.length := h.symm
    rw [h8, List.take_left]
  have hdrop2 : (ivBase ++ List.replicate 4 (0 : Nat)).drop (8 + (u32le i).length) = [] := by
    apply List.drop_eq_nil_of_le
    simp [h, hlen4]
  rw [htake, hdrop2, List.append_nil]

/-- C1 counterexample: at chunk index 1 (zero `ivBase`), the IV actually
used is `ivBase ++ u32le 1`, which differs from the big-endian form
`ivBase ++ u32be 1` stated in the claim. -/
theorem claim_C1_counterexample :
    buildChunkIV [0, 0, 0, 0, 0, 0, 0, 0] 1 ≠
      [0, 0, 0, 0, 0, 0, 0, 0] ++ u32be 1 := by
  decide

/-- C1 (amended): for every chunk index `i`, both the build-time IV and
the runtime IV equal the 8-byte `pj.ivBase` concatenated with the 4-byte
little-endian (not big-endian) encoding of `i`; in particular the two
sites agree. -/
theorem claim_C1_chunk_iv_little_endian (ivBase : List Nat) (i : Nat)
    (h : ivBase.length = 8) :
    buildChunkIV ivBase i = ivBase ++ u32le i ∧
      rtChunkIV ivBase i = buildChunkIV ivBase i := by
  refine ⟨setBytes_chunkIV ivBase i h, ?_⟩
  rfl

theorem claim_C1_witness :
    buildChunkIV [1, 2, 3, 4, 5, 6, 7, 8] 3 = [1, 2, 3, 4, 5, 6, 7, 8] ++ u32le 3 ∧
      rtChunkIV [1, 2, 3, 4, 5, 6, 7, 8] 3 = buildChunkIV [1, 2, 3, 4, 5, 6, 7, 8] 3 :=
  claim_C1_chunk_iv_little_endian [1, 2, 3, 4, 5, 6, 7, 8] 3 (by decide)

/-! ## Generated electron-main integrity verifier

`verifySignedIntegrityManifest` runs inside the generated
`electron-main.js`.  Paths are modelled as segment lists (the segments of
an absolute POSIX path below `/`); `path.join(__dirname, rel)` appends
the split relative path and normalizes, `path.normalize` is idempotent on
the result, and the `startsWith(path.normalize(__dirname + path.sep))`
containment test is the strict segment-prefix test.  External effects
(file presence, `JSON.parse`, `crypto.verify`, `fs.readFileSync`, SHA-256
hex) are environment fields; the verifier also returns the list of paths
it passed to `fs.readFileSync`, so that "never reads outside the bundle
root" is statable. -/

/-- Character-level split of a path string on `/` (the behaviour of
`String.splitOn "/"`, restated with structural recursion). -/
def splitCharsGo (sep : Char) : List Char → List Char → List (List Char)
  | [], cur => [cur.reverse]
  | c :: rest, cur =>
    if c = sep then cur.reverse :: splitCharsGo sep rest []
    else splitCharsGo sep rest (c :: cur)

/-- The segments of a relative path, as `path.join` splits them. -/
def splitPath (s : String) : List String :=
  (splitCharsGo (Char.ofNat 47) s.data []).map (fun cs => String.mk cs)

/-- Node `path.normalize` on a segment list of an absolute path: drop
empty and `.` segments, let `..` pop the previous segment (above the
root it vanishes). -/
def normalizeSegs (segs : List String) : List String :=
  segs.foldl (fun acc seg =>
    if seg = "" ∨ seg = "." then acc
    else if seg = ".." then acc.dropLast
    else acc ++ [seg]) []

/-- `normalized.startsWith(path.normalize(__dirname + path.sep))`: the
bundle root is a strict prefix of the resolved path. -/
def pathWithinRoot (root p : List String) : Bool :=
  root.isPrefixOf p && decide (root.length < p.length)

/-- The parsed integrity manifest as the verifier reads it: `kid` plus
the `files` object (`none` models a manifest whose `files` is absent or
not an object); each entry is `relativePath` with its `sha256` hex (the
verifier never reads `size`). -/
structure WbManifest where
  kid : String
  files : Option (List (String × String))

/-- Everything the generated verifier observes from its environment. -/
structure VerifyEnv where
  root : List String
  required : Bool
  manifestPresent : Bool
  sigPresent : Bool
  parsed : Option WbManifest
  keys : List (String × String)
  sigOk : Bool
  readFile : List String → Option (List Nat)
  hashHex : List Nat → String

/-- The per-file loop of `verifySignedIntegrityManifest`: reject empty
rel or missing `sha256`, resolve, reject non-contained paths *before*
reading, then read and compare the recomputed hash.  The second
component accumulates every path passed to `fs.readFileSync`. -/
def verifyFilesGo (env : VerifyEnv) :
    List (String × String) → List (List String) → Bool × List (List String)
  | [], reads => (true, reads)
  | (rel, expected) :: rest, reads =>
    if rel = "" then (false, reads)
    else if expected = "" then (false, reads)
    else
      let abs := normalizeSegs (env.root ++ splitPath rel)
      if pathWithinRoot env.root abs then
        match env.readFile abs with
        | none => (false, reads ++ [abs])
        | some data =>
          if env.hashHex data = expected then verifyFilesGo env rest (reads ++ [abs])
          else (false, reads ++ [abs])
      else (false, reads)

/-- Embedding of the generated `verifySignedIntegrityManifest`: locate
manifest and signature next to the bundle (absence is gated by
`WB_INTEGRITY_REQUIRED`), parse, look up the public key by `kid`, check
the signature, then run the per-file loop. -/
def verifySignedIntegrityManifest (env : VerifyEnv) : Bool × List (List String) :=
  if env.manifestPresent && env.sigPresent then
    let reads0 := [env.root ++ ["wb-integrity.json"], env.root ++ ["wb-integrity.sig"]]
    match env.parsed with
    | none => (false, reads0)
    | some m =>
      match env.keys.lookup m.kid with
      | none => (false, reads0)
      | some _ =>
        if env.sigOk then
          match m.files with
          | none => (false, reads0)
          | some files => verifyFilesGo env files reads0
        else (false, reads0)
  else (!env.required, [])

/-- Embedding of the generated `verifyIntegrity`: a failing manifest
check triggers `app.exit(2)`; otherwise the optional script/index hash
checks run (each also exiting on mismatch or read failure).  Returns
`(result, exitCalled)`. -/
def verifyIntegrity (env : VerifyEnv)
    (checkScript checkIndex scriptHashOk indexHashOk : Bool) : Bool × Bool :=
  if !(verifySignedIntegrityManifest env).1 then (false, true)
  else if !checkScript && !checkIndex then (true, false)
  else if checkScript && !scriptHashOk then (false, true)
  else if checkIndex && !indexHashOk then (false, true)
  else (true, false)

theorem verifyFilesGo_reads (env : VerifyEnv) :
    ∀ files reads p, p ∈ (verifyFilesGo env files reads).2 →
      p ∈ reads ∨ pathWithinRoot env.root p = true := by
  intro files
  induction files with
  | nil =>
    intro reads p hp
    exact Or.inl hp
  | cons e rest ih =>
    intro reads p hp
    match e with
    | (rel, expected) =>
      rw [verifyFilesGo] at hp
      by_cases h1 : rel = ""
      · rw [if_pos h1] at hp
        exact Or.inl hp
      · rw [if_neg h1] at hp
        by_cases h2 : expected = ""
        · rw [if_pos h2] at hp
          exact Or.inl hp
        · rw [if_neg h2] at hp
          simp only at hp
          by_cases h3 : pathWithinRoot env.root
              (normalizeSegs (env.root ++ splitPath rel)) = true
          · rw [if_pos h3] at hp
            cases hread : env.readFile (normalizeSegs (env.root ++ splitPath rel)) with
            | none =>
              rw [hread] at hp
              simp only at hp
              rcases List.mem_append.mp hp with h | h
              · exact Or.inl h
              · right
                rw [List.mem_singleton.mp h]
                exact h3
            | some data =>
              rw [hread] at hp
              simp only at hp
              by_cases h4 : env.hashHex data = expected
              · rw [if_pos h4] at hp
                rcases ih _ p hp with h | h
                · rcases List.mem_append.mp h with h5 | h5
                  · exact Or.inl h5
                  · right
                    rw [List.mem_singleton.mp h5]
                    exact h3
                · exact Or.inr h
              · rw [if_neg h4] at hp
                rcases List.mem_append.mp hp with h | h
                · exact Or.inl h
                · right
                  rw [List.mem_singleton.mp h]
                  exact h3
          · rw [if_neg h3] at hp
            exact Or.inl hp

theorem verifyFilesGo_bad (env : VerifyEnv) :
    ∀ files reads,
      (∃ e ∈ files, pathWithinRoot env.root
        (normalizeSegs (env.root ++ splitPath e.1)) = false) →
      (verifyFilesGo env files reads).1 = false := by
  intro files
  induction files with
  | nil =>
    intro reads hbad
    rcases hbad with ⟨e, he, _⟩
    exact absurd he (List.not_mem_nil e)
  | cons e rest ih =>
    intro reads hbad
    match e with
    | (rel, expected) =>
      rw [verifyFilesGo]
      by_cases h1 : rel = ""
      · rw [if_pos h1]
      · rw [if_neg h1]
        by_cases h2 : expected = ""
        · rw [if_pos h2]
        · rw [if_neg h2]
          simp only
          by_cases h3 : pathWithinRoot env.root
              (normalizeSegs (env.root ++ splitPath rel)) = true
          · rw [if_pos h3]
            cases hread : env.readFile (normalizeSegs (env.root ++ splitPath rel)) with
            | none => rfl
            | some data =>
              show (if env.hashHex data = expected then
                  verifyFilesGo env rest (reads ++ [normalizeSegs (env.root ++ splitPath rel)])
                else (false, reads ++ [normalizeSegs (env.root ++ splitPath rel)])).1 = false
              by_cases h4 : env.hashHex data = expected
              · rw [if_pos h4]
                apply ih
                rcases hbad with ⟨e2, he2, hbad2⟩
                rcases List.mem_cons.mp he2 with heq | hmem
                · exfalso
                  subst heq
                  simp only at hbad2
                  rw [h3] at hbad2
                  exact Bool.noConfusion hbad2
                · exact ⟨e2, hmem, hbad2⟩
              · rw [if_neg h4]
          · rw [if_neg h3]

/-- C6: a present, parsed manifest containing a file entry whose resolved
path escapes the bundle root makes the verifier return `false`, and every
path the verifier passes to `fs.readFileSync` (beyond the manifest and
signature files next to the bundle) stays within the bundle root. -/
theorem claim_C6_verifier_rejects_traversal (env : VerifyEnv) (m : WbManifest)
    (files : List (String × String))
    (hm : env.manifestPresent = true) (hs : env.sigPresent = true)
    (hp : env.parsed = some m) (hf : m.files = some files)
    (hbad : ∃ e ∈ files, pathWithinRoot env.root
      (normalizeSegs (env.root ++ splitPath e.1)) = false) :
    (verifySignedIntegrityManifest env).1 = false ∧
      (∀ p ∈ (verifySignedIntegrityManifest env).2,
        p = env.root ++ ["wb-integrity.json"] ∨ p = env.root ++ ["wb-integrity.sig"] ∨
          pathWithinRoot env.root p = true) := by
  unfold verifySignedIntegrityManifest
  rw [hm, hs]
  simp only [Bool.and_self, if_pos]
  rw [hp]
  simp only
  cases hkey : env.keys.lookup m.kid with
  | none =>
    constructor
    · rfl
    · intro p hp2
      rcases List.mem_cons.mp hp2 with h | h
      · exact Or.inl h
      · exact Or.inr (Or.inl (List.mem_singleton.mp h))
  | some pub =>
    by_cases hsig : env.sigOk = true
    · rw [if_pos hsig, hf]
      constructor
      · exact verifyFilesGo_bad env files _ hbad
      · intro p hp2
        rcases verifyFilesGo_reads env files _ p hp2 with h | h
        · rcases List.mem_cons.mp h with h2 | h2
          · exact Or.inl h2
          · exact Or.inr (Or.inl (List.mem_singleton.mp h2))
        · exact Or.inr (Or.inr h)
    · rw [if_neg hsig]
      constructor
      · rfl
      · intro p hp2
        rcases List.mem_cons.mp hp2 with h | h
        · exact Or.inl h
        · exact Or.inr (Or.inl (List.mem_singleton.mp h))

def c6Env : VerifyEnv :=
  { root := ["app", "bundle"], required := true, manifestPresent := true,
    sigPresent := true,
    parsed := some ⟨"prod", some [("../../etc/passwd", "aa")]⟩,
    keys := [("prod", "PEM")], sigOk := true,
    readFile := fun _ => some [], hashHex := fun _ => "aa" }

theorem claim_C6_witness :
    (verifySignedIntegrityManifest c6Env).1 = false ∧
      (∀ p ∈ (verifySignedIntegrityManifest c6Env).2,
        p = c6Env.root ++ ["wb-integrity.json"] ∨
          p = c6Env.root ++ ["wb-integrity.sig"] ∨
          pathWithinRoot c6Env.root p = true) :=
  claim_C6_verifier_rejects_traversal c6Env
    ⟨"prod", some [("../../etc/passwd", "aa")]⟩
    [("../../etc/passwd", "aa")] rfl rfl rfl rfl
    ⟨("../../etc/passwd", "aa"), by decide⟩

/-- C7: when the manifest or the signature file is absent, the verifier
returns `true` iff integrity is not required; when required, the wrapper
`verifyIntegrity` calls `app.exit(2)`. -/
theorem claim_C7_absence_gated_by_required (env : VerifyEnv)
    (habs : env.manifestPresent = false ∨ env.sigPresent = false) :
    ((verifySignedIntegrityManifest env).1 = true ↔ env.required = false) ∧
      (env.required = true →
        ∀ cs ci so io, (verifyIntegrity env cs ci so io).2 = true) := by
  have hnot : (env.manifestPresent && env.sigPresent) = false := by
    rcases habs with h | h <;> simp [h]
  have hmain : verifySignedIntegrityManifest env = (!env.required, []) := by
    unfold verifySignedIntegrityManifest
    rw [hnot]
    simp
  constructor
  · rw [hmain]
    cases henv : env.required <;> simp
  · intro hreq cs ci so io
    unfold verifyIntegrity
    rw [hmain, hreq]
    simp

def c7Env : VerifyEnv :=
  { root := ["app"], required := true, manifestPresent := false,
    sigPresent := true, parsed := none, keys := [], sigOk := false,
    readFile := fun _ => none, hashHex := fun _ => "" }

theorem claim_C7_witness :
    ((verifySignedIntegrityManifest c7Env).1 = true ↔ c7Env.required = false) ∧
      (c7Env.required = true →
        ∀ cs ci so io, (verifyIntegrity c7Env cs ci so io).2 = true) :=
  claim_C7_absence_gated_by_required c7Env (Or.inl rfl)

/-! ## sign-integrity CLI (`src/build/sign-integrity.js`)

`run()` is modelled over an environment of external observations: argv,
environment variables, and the success of each fallible external step
(file reads, zip load/generate, key parsing).  Any step that throws is
caught by `run().catch` which exits with code 1; a missing/empty input
argument prints usage and exits 2; success exits 0 after writing the
`kid` and the known public-key ids to standard output. -/

structure SignEnv where
  argv2 : Option String
  argv3 : Option String
  readInputOk : Bool
  zipLoadOk : Bool
  zipPaths : List String
  envKeyId : Option String
  envPrivPem : Option String
  envPrivPath : Option String
  envPubJson : Option String
  envPubPath : Option String
  readPrivOk : Bool
  parsePrivOk : Bool
  pubJsonParse : Option (List String)
  readPubOk : Bool
  pubPathParse : Option (List String)
  manifestBuildOk : Bool
  outputOk : Bool

/-- JavaScript falsiness of an optional string (`undefined` or `""`). -/
def strFalsy : Option String → Bool
  | none => true
  | some v => v = ""

/-- `value || null` for environment strings: the empty string collapses
to "not set". -/
def optNonempty : Option String → Option String
  | none => none
  | some v => if v = "" then none else some v

/-- `/electron-main\.js$/i.test(p)`: case-insensitive suffix match. -/
def isElectronMainPath (p : String) : Bool :=
  List.isSuffixOf ("electron-main.js".data) (p.data.map Char.toLower)

/-- Embedding of `pickKeyMaterial()` (sign-integrity CLI): key id from
`WB_INTEGRITY_KEY_ID || 'prod'`; private key from the PEM env var or the
path env var (missing both throws); public keys from the JSON env var,
the path env var, or derived from the private key as `{kid: pem}`.
Returns `(kid, public key ids)`; `none` models a throw. -/
def pickKeyMaterial (env : SignEnv) : Option (String × List String) :=
  let kid := match optNonempty env.envKeyId with
    | some s => s
    | none => "prod"
  let privPem := optNonempty env.envPrivPem
  let privPath := optNonempty env.envPrivPath
  if privPem = none ∧ privPath = none then none
  else
    let pemOk := match privPem with
      | some _ => true
      | none => env.readPrivOk
    if pemOk then
      if env.parsePrivOk then
        match optNonempty env.envPubJson with
        | some _ =>
          match env.pubJsonParse with
          | some ids => some (kid, ids)
          | none => none
        | none =>
          match optNonempty env.envPubPath with
          | some _ =>
            if env.readPubOk then
              match env.pubPathParse with
              | some ids => some (kid, ids)
              | none => none
            else none
          | none => some (kid, [kid])
      else none
    else none

/-- `Array.prototype.join(', ')`. -/
def joinComma : List String → String
  | [] => ""
  | [x] => x
  | x :: rest => x ++ ", " ++ joinComma rest

/-- `output = process.argv[3] || input`. -/
def signOutputName (env : SignEnv) (input : String) : String :=
  match env.argv3 with
  | some o => if o = "" then input else o
  | none => input

/-- The body of `run()` after the input argument was validated: read the
zip, load it, locate `electron-main.js`, pick key material, build and
sign the manifest, rewrite the zip.  Returns `(exitCode, stdoutLines)`;
every throwing step maps to exit code 1 via `run().catch`. -/
def signAfterInput (env : SignEnv) (input : String) : Nat × List String :=
  if env.readInputOk then
    if env.zipLoadOk then
      match env.zipPaths.find? (fun p => isElectronMainPath p) with
      | none => (1, [])
      | some _ =>
        match pickKeyMaterial env with
        | none => (1, [])
        | some (kid, ids) =>
          if env.manifestBuildOk then
            if env.outputOk then
              (0, ["Wrote " ++ signOutputName env input, "kid: " ++ kid,
                   "publicKeys: " ++ joinComma ids])
            else (1, [])
          else (1, [])
    else (1, [])
  else (1, [])

/-- Embedding of the sign-integrity `run()` entry:
`if (!input) { usage(); process.exit(2); }`, then the signing body. -/
def signIntegrityRun (env : SignEnv) : Nat × List String :=
  match env.argv2 with
  | none => (2, [])
  | some input =>
    if input = "" then (2, [])
    else signAfterInput env input

/-- All external steps of the signing body succeed. -/
def signSuccess (env : SignEnv) : Bool :=
  env.readInputOk && env.zipLoadOk &&
    (env.zipPaths.find? (fun p => isElectronMainPath p)).isSome &&
    (pickKeyMaterial env).isSome && env.manifestBuildOk && env.outputOk

theorem signAfterInput_fail (env : SignEnv) (input : String)
    (h : signSuccess env = false) : signAfterInput env input = (1, []) := by
  unfold signAfterInput
  by_cases h1 : env.readInputOk
  · rw [if_pos h1]
    by_cases h2 : env.zipLoadOk
    · rw [if_pos h2]
      cases h3 : env.zipPaths.find? (fun p => isElectronMainPath p) with
      | none => rfl
      | some em =>
        cases h4 : pickKeyMaterial env with
        | none => rfl
        | some kp =>
          obtain ⟨kid, ids⟩ := kp
          by_cases h5 : env.manifestBuildOk
          · by_cases h6 : env.outputOk
            · exfalso
              rw [signSuccess, h3, h4] at h
              simp [h1, h2, h5, h6] at h
            · simp [h5, h6]
          · simp [h5]
    · rw [if_neg h2]
  · rw [if_neg h1]

theorem signAfterInput_succ (env : SignEnv) (input : String)
    (h : signSuccess env = true) :
    ∃ kid ids, pickKeyMaterial env = some (kid, ids) ∧
      signAfterInput env input =
        (0, ["Wrote " ++ signOutputName env input, "kid: " ++ kid,
             "publicKeys: " ++ joinComma ids]) := by
  rw [signSuccess] at h
  simp only [Bool.and_eq_true] at h
  obtain ⟨⟨⟨⟨⟨h1, h2⟩, h3⟩, h4⟩, h5⟩, h6⟩ := h
  cases hfind : env.zipPaths.find? (fun p => isElectronMainPath p) with
  | none =>
    rw [hfind] at h3
    exact absurd h3 (by simp)
  | some em =>
    cases hpick : pickKeyMaterial env with
    | none =>
      rw [hpick] at h4
      exact absurd h4 (by simp)
    | some kp =>
      obtain ⟨kid, ids⟩ := kp
      refine ⟨kid, ids, rfl, ?_⟩
      unfold signAfterInput
      rw [if_pos h1, if_pos h2, hfind, hpick]
      simp [h5, h6]

/-- C8: the sign-integrity CLI exits 2 exactly when the input argument is
missing (or empty, which JavaScript treats the same), otherwise 0 on
success and 1 on any failure (missing key material, unreadable zip,
missing electron-main.js, ...); on success it writes the `kid` and the
known public-key ids to standard output. -/
theorem claim_C8_sign_cli_exit_codes (env : SignEnv) :
    ((signIntegrityRun env).1 = 2 ↔ strFalsy env.argv2 = true) ∧
      ((signIntegrityRun env).1 = 0 ∨ (signIntegrityRun env).1 = 1 ∨
        (signIntegrityRun env).1 = 2) ∧
      (∀ input, env.argv2 = some input → input ≠ "" →
        ((signIntegrityRun env).1 = 0 ↔ signSuccess env = true)) ∧
      ((signIntegrityRun env).1 = 0 →
        ∃ input kid ids, env.argv2 = some input ∧
          pickKeyMaterial env = some (kid, ids) ∧
          (signIntegrityRun env).2 =
            ["Wrote " ++ signOutputName env input, "kid: " ++ kid,
             "publicKeys: " ++ joinComma ids]) := by
  cases h2 : env.argv2 with
  | none =>
    refine ⟨?_, ?_, ?_, ?_⟩
    · simp [signIntegrityRun, h2, strFalsy]
    · simp [signIntegrityRun, h2]
    · intro input hi
      exact absurd hi (by simp [h2])
    · simp [signIntegrityRun, h2]
  | some input =>
    by_cases hin : input = ""
    · subst hin
      refine ⟨?_, ?_, ?_, ?_⟩
      · simp [signIntegrityRun, h2, strFalsy]
      · simp [signIntegrityRun, h2]
      · intro input2 hi hne
        injection hi with hi2
        exact absurd hi2.symm hne
      · simp [signIntegrityRun, h2]
    · have hrun : signIntegrityRun env = signAfterInput env input := by
        unfold signIntegrityRun
        rw [h2]
        simp [hin]
      cases hsucc : signSuccess env with
      | false =>
        have hfail := signAfterInput_fail env input hsucc
        refine ⟨?_, ?_, ?_, ?_⟩
        · rw [hrun, hfail]
          simp [strFalsy, hin]
        · rw [hrun, hfail]
          simp
        · intro input2 hi hne
          rw [hrun, hfail]
          simp
        · rw [hrun, hfail]
          simp
      | true =>
        obtain ⟨kid, ids, hpick, hval⟩ := signAfterInput_succ env input hsucc
        refine ⟨?_, ?_, ?_, ?_⟩
        · rw [hrun, hval]
          simp [strFalsy, hin]
        · rw [hrun, hval]
          simp
        · intro input2 hi hne
          rw [hrun, hval]
          simp
        · intro _
          rw [hrun, hval]
          exact ⟨input, kid, ids, rfl, hpick, rfl⟩

def c8Env : SignEnv :=
  { argv2 := some "bundle.zip", argv3 := none, readInputOk := true,
    zipLoadOk := true, zipPaths := ["resources/electron-main.js"],
    envKeyId := none, envPrivPem := some "PEM", envPrivPath := none,
    envPubJson := none, envPubPath := none, readPrivOk := true,
    parsePrivOk := true, pubJsonParse := none, readPubOk := true,
    pubPathParse := none, manifestBuildOk := true, outputOk := true }

theorem claim_C8_witness :
    ((signIntegrityRun c8Env).1 = 2 ↔ strFalsy c8Env.argv2 = true) ∧
      ((signIntegrityRun c8Env).1 = 0 ∨ (signIntegrityRun c8Env).1 = 1 ∨
        (signIntegrityRun c8Env).1 = 2) ∧
      (∀ input, c8Env.argv2 = some input → input ≠ "" →
        ((signIntegrityRun c8Env).1 = 0 ↔ signSuccess c8Env = true)) ∧
      ((signIntegrityRun c8Env).1 = 0 →
        ∃ input kid ids, c8Env.argv2 = some input ∧
          pickKeyMaterial c8Env = some (kid, ids) ∧
          (signIntegrityRun c8Env).2 =
            ["Wrote " ++ signOutputName c8Env input, "kid: " ++ kid,
             "publicKeys: " ++ joinComma ids]) :=
  claim_C8_sign_cli_exit_codes c8Env

/-! ## Packager target gating (`Packager.package` /
`generateGetProjectData`) -/

/-- The option fields `package()` consults for project encryption:
`this.options.target`, truthiness of `this.options.wb`, and the
`wb.encryptProject` / `wb.packResourcesXor` flags. -/
structure WbOptions where
  target : String
  wbPresent : Bool
  encryptProject : Bool
  packResourcesXor : Bool

/-- Embedding of
`!!(this.options.wb && this.options.wb.encryptProject &&
this.options.target !== 'html')` (identical at `package()` line 2793 and
`generateGetProjectData` line 2043). -/
def computeEncryptProject (o : WbOptions) : Bool :=
  o.wbPresent && o.encryptProject && !(o.target == "html")

/-- The Outer Encryption Descriptor `{v: 2, alg: 'A256GCM', k,
project: {iv}}` (`k` and `iv` base64-encoded in the source; raw bytes
here). -/
structure OuterEnc where
  v : Nat
  alg : String
  k : List Nat
  projectIv : List Nat

/-- `package()` sets `this.wbEncryption` to the fresh descriptor when
`encryptProject` holds and to `null` otherwise. -/
def packageWbEncryption (o : WbOptions) (keyBytes projectIvBytes : List Nat) :
    Option OuterEnc :=
  if computeEncryptProject o then
    some { v := 2, alg := "A256GCM", k := keyBytes, projectIv := projectIvBytes }
  else none

/-- Embedding of `fileSeed(name)`: byte-wrapped sum of the UTF-16 code
units of the name. -/
def fileSeed (name : String) : Nat :=
  name.data.foldl (fun seed c => (seed + c.toNat) % 256) 0

/-- `seed = (fileSeed('project') ^ saltBytes[0]) & 0xff` in the html
resource-pack branch. -/
def htmlXorSeed (saltBytes : List Nat) : Nat :=
  (fileSeed "project" ^^^ saltBytes.getD 0 0) % 256

/-- The project bytes emitted by `generateGetProjectData` for the html
target: the original `arrayBuffer`, XOR-obfuscated only when
`packResourcesXor` applies to a zip project — no AES-GCM transform
appears in this branch. -/
def htmlProjectData (o : WbOptions) (isZip : Bool)
    (original keyBytes saltBytes : List Nat) : List Nat :=
  if o.packResourcesXor && isZip then
    xorCrypt original keyBytes (htmlXorSeed saltBytes)
  else original

/-- C10: with `options.target = 'html'` the `encryptProject` flag is
computed `false` even when `wb.encryptProject` is set, `wbEncryption`
stays `null`, and the emitted project bytes are either the original
bytes or their XOR-pack obfuscation — never an AES-GCM ciphertext. -/
theorem claim_C10_html_target_never_encrypts (o : WbOptions)
    (h : o.target = "html")
    (keyBytes projectIvBytes original saltBytes : List Nat) (isZip : Bool) :
    computeEncryptProject o = false ∧
      packageWbEncryption o keyBytes projectIvBytes = none ∧
      (htmlProjectData o isZip original keyBytes saltBytes = original ∨
        htmlProjectData o isZip original keyBytes saltBytes =
          xorCrypt original keyBytes (htmlXorSeed saltBytes)) := by
  have henc : computeEncryptProject o = false := by
    unfold computeEncryptProject
    rw [h]
    simp
  refine ⟨henc, ?_, ?_⟩
  · unfold packageWbEncryption
    rw [henc]
    simp
  · unfold htmlProjectData
    by_cases hx : (o.packResourcesXor && isZip) = true
    · rw [if_pos hx]
      exact Or.inr rfl
    · rw [if_neg hx]
      exact Or.inl rfl

theorem claim_C10_witness :
    computeEncryptProject
        { target := "html", wbPresent := true, encryptProject := true,
          packResourcesXor := true } = false ∧
      packageWbEncryption
        { target := "html", wbPresent := true, encryptProject := true,
          packResourcesXor := true } [1, 2] [3, 4] = none ∧
      (htmlProjectData
        { target := "html", wbPresent := true, encryptProject := true,
          packResourcesXor := true } true [10, 20] [1, 2] [3, 4] = [10, 20] ∨
        htmlProjectData
          { target := "html", wbPresent := true, encryptProject := true,
            packResourcesXor := true } true [10, 20] [1, 2] [3, 4] =
          xorCrypt [10, 20] [1, 2] (htmlXorSeed [3, 4])) :=
  claim_C10_html_target_never_encrypts
    { target := "html", wbPresent := true, encryptProject := true,
      packResourcesXor := true } rfl [1, 2] [3, 4] [10, 20] [3, 4] true

/-! ## Opcode obfuscation (`obfuscateProjectOpcodes` /
`randomOpcodeAlias`)

Blocks are modelled as an optional opcode (`none` for a missing or
non-string `opcode` field) plus an opaque payload standing for every
other block field; a target is its list of block values (the order
`Object.values(t.blocks)` yields).  `randomBytes` (WebCrypto) is the
external randomness source, modelled as a byte stream consumed in call
order; alias generation returns `none` if the stream runs out (the
JavaScript loop would instead keep drawing fresh randomness).  The
alias-retry `while` loop consumes 8 bytes per candidate, so a fuel of
`rng.length` over-approximates the number of iterations the stream can
feed; the fuel branch is unreachable before exhaustion of the stream
itself. -/

structure WbBlock where
  opcode : Option String
  payload : Nat
deriving DecidableEq

/-- `Number.prototype.toString(16)` digit. -/
def hexChar (n : Nat) : Char :=
  if n < 10 then Char.ofNat (48 + n) else Char.ofNat (87 + n)

/-- `bytesToHex`: two lowercase hex digits per byte
(`b.toString(16).padStart(2, '0')` for byte values). -/
def bytesToHex (bs : List Nat) : String :=
  String.mk ((bs.map (fun b => [hexChar (b / 16 % 16), hexChar (b % 16)])).flatten)

/-- `randomOpcodeAlias()` applied to the 8 random bytes it draws. -/
def randomOpcodeAlias (b8 : List Nat) : String :=
  "op" ++ bytesToHex b8

/-- The first pass of `obfuscateProjectOpcodes`: every non-empty string
opcode of every block, in iteration order. -/
def collectOpcodes (targets : List (List WbBlock)) : List String :=
  (targets.map (fun blocks => blocks.filterMap (fun b =>
    match b.opcode with
    | some s => if s = "" then none else some s
    | none => none))).flatten

/-- Insertion-order deduplication (`Set` iteration order). -/
def firstDedupGo (seen : List String) : List String → List String
  | [] => []
  | x :: xs =>
    if x ∈ seen then firstDedupGo seen xs
    else x :: firstDedupGo (x :: seen) xs

def firstDedup (l : List String) : List String := firstDedupGo [] l

/-- The `while (aliases.length < aliasCount)` loop: draw 8 bytes, build
the candidate alias, skip it if `used` already has it, otherwise record
it in `used`, the alias list and the map. -/
def genLoop (used : List String) (fuel : Nat) (rng : List Nat) (need : Nat)
    (acc : List String) : Option (List String × List String × List Nat) :=
  match need, fuel with
  | 0, _ => some (acc.reverse, used, rng)
  | _ + 1, 0 => none
  | n + 1, f + 1 =>
    if 8 ≤ rng.length then
      if randomOpcodeAlias (rng.take 8) ∈ used then
        genLoop used f (rng.drop 8) (n + 1) acc
      else
        genLoop (randomOpcodeAlias (rng.take 8) :: used) f (rng.drop 8) n
          (randomOpcodeAlias (rng.take 8) :: acc)
    else none

/-- The `for (const real of realOpcodes)` loop: one random byte decides
`aliasCount = 2 + (b % 3)`, then the alias loop runs.  Produces the
`aliasesByReal` association. -/
def genAll (used : List String) (rng : List Nat) :
    List String → Option (List (String × List String) × List String × List Nat)
  | [] => some ([], used, rng)
  | real :: rest =>
    match rng with
    | [] => none
    | c :: rng2 =>
      match genLoop used rng2.length rng2 (2 + c % 3) [] with
      | none => none
      | some (aliases, used2, rng3) =>
        match genAll used2 rng3 rest with
        | none => none
        | some (abr, used3, rng4) => some ((real, aliases) :: abr, used3, rng4)

/-- The `map[alias] = real` assignments, in insertion order. -/
def opMapOf (abr : List (String × List String)) : List (String × String) :=
  (abr.map (fun p => p.2.map (fun a => (a, p.1)))).flatten

/-- The second pass, per block: replace an opcode that has aliases by a
randomly selected alias (one random byte), leave other blocks alone. -/
def replaceBlock (abr : List (String × List String)) (b : WbBlock)
    (rng : List Nat) : Option (WbBlock × List Nat) :=
  match b.opcode with
  | none => some (b, rng)
  | some s =>
    match abr.lookup s with
    | none => some (b, rng)
    | some aliases =>
      match rng with
      | [] => none
      | c :: rng2 =>
        some ({ opcode := some (aliases.getD (c % aliases.length) ""),
                payload := b.payload }, rng2)

def replaceBlocks (abr : List (String × List String)) :
    List WbBlock → List Nat → Option (List WbBlock × List Nat)
  | [], rng => some ([], rng)
  | b :: bs, rng =>
    match replaceBlock abr b rng with
    | none => none
    | some (b2, rng2) =>
      match replaceBlocks abr bs rng2 with
      | none => none
      | some (bs2, rng3) => some (b2 :: bs2, rng3)

def replaceTargets (abr : List (String × List String)) :
    List (List WbBlock) → List Nat → Option (List (List WbBlock) × List Nat)
  | [], rng => some ([], rng)
  | blocks :: ts, rng =>
    match replaceBlocks abr blocks rng with
    | none => none
    | some (blocks2, rng2) =>
      match replaceTargets abr ts rng2 with
      | none => none
      | some (ts2, rng3) => some (blocks2 :: ts2, rng3)

/-- Embedding of `obfuscateProjectOpcodes(projectJSON)`: scan the real
opcodes (seeding `used` with them), generate 2-4 fresh aliases per real
opcode, rewrite every matching block opcode to one of its aliases, and
return the rewritten targets together with `wbOpcodeMap.map`. -/
def obfuscateProjectOpcodes (targets : List (List WbBlock)) (rng : List Nat) :
    Option (List (List WbBlock) × List (String × String)) :=
  let reals := firstDedup (collectOpcodes targets)
  match genAll reals rng reals with
  | none => none
  | some (abr, _, rng2) =>
    match replaceTargets abr targets rng2 with
    | none => none
    | some (targets2, _) => some (targets2, opMapOf abr)

/-- The inverse direction stated by the claim, per block: translate the
opcode through `wbOpcodeMap.map`, leaving opcodes that are not aliases
alone. -/
def applyOpMapBlock (m : List (String × String)) (b : WbBlock) : WbBlock :=
  match b.opcode with
  | none => b
  | some a =>
    match m.lookup a with
    | none => b
    | some r => { opcode := some r, payload := b.payload }

/-- Apply `wbOpcodeMap.map` to every block opcode of every target. -/
def applyOpMap (m : List (String × String)) (targets : List (List WbBlock)) :
    List (List WbBlock) :=
  targets.map (fun blocks => blocks.map (applyOpMapBlock m))

/-- A string that `randomOpcodeAlias` can produce. -/
def AliasShaped (a : String) : Prop := ∃ b8, a = randomOpcodeAlias b8

theorem aliasShaped_ne_empty {a : String} (h : AliasShaped a) : a ≠ "" := by
  obtain ⟨b8, rfl⟩ := h
  intro hcontra
  unfold randomOpcodeAlias at hcontra
  have h2 := congrArg String.length hcontra
  rw [String.length_append] at h2
  have h3 : ("op".length) = 2 := rfl
  have h4 : ("" : String).length = 0 := rfl
  omega

theorem lookup_mem {β : Type _} {m : List (String × β)} {a : String} {v : β}
    (h : m.lookup a = some v) : (a, v) ∈ m := by
  induction m with
  | nil => exact absurd h (by simp)
  | cons e rest ih =>
    obtain ⟨k, b⟩ := e
    rw [List.lookup_cons] at h
    cases hbeq : a == k with
    | true =>
      rw [hbeq] at h
      injection h with hv
      rw [eq_of_beq hbeq, ← hv]
      exact List.mem_cons_self _ _
    | false =>
      rw [hbeq] at h
      exact List.mem_cons_of_mem _ (ih h)

theorem lookup_eq_none_of_not_mem_keys {β : Type _} {m : List (String × β)} {a : String}
    (h : a ∉ m.map Prod.fst) : m.lookup a = none := by
  induction m with
  | nil => rfl
  | cons e rest ih =>
    obtain ⟨k, b⟩ := e
    rw [List.lookup_cons]
    have hak : ¬ a = k := by
      intro hcontra
      exact h (by simp [hcontra])
    have hbeq : (a == k) = false := by
      rw [beq_eq_false_iff_ne]
      exact hak
    rw [hbeq]
    exact ih (fun hmem => h (List.mem_cons_of_mem _ hmem))

theorem lookup_some_of_mem_keys {β : Type _} {m : List (String × β)} {a : String}
    (h : a ∈ m.map Prod.fst) : ∃ v, m.lookup a = some v ∧ (a, v) ∈ m := by
  induction m with
  | nil => exact absurd h (by simp)
  | cons e rest ih =>
    obtain ⟨k, b⟩ := e
    by_cases hak : a = k
    · refine ⟨b, ?_, ?_⟩
      · rw [List.lookup_cons]
        have hbeq : (a == k) = true := by
          rw [beq_iff_eq]
          exact hak
        rw [hbeq]
      · rw [hak]
        exact List.mem_cons_self _ _
    · have hmem : a ∈ rest.map Prod.fst := by
        rcases List.mem_cons.mp h with h2 | h2
        · exact absurd h2 hak
        · exact h2
      obtain ⟨v, hv, hvm⟩ := ih hmem
      refine ⟨v, ?_, List.mem_cons_of_mem _ hvm⟩
      rw [List.lookup_cons]
      have hbeq : (a == k) = false := by
        rw [beq_eq_false_iff_ne]
        exact hak
      rw [hbeq]
      exact hv

theorem lookup_map_self (r : String) (as : List String) (a : String) :
    (as.map (fun x => (x, r))).lookup a = if a ∈ as then some r else none := by
  induction as with
  | nil => rfl
  | cons x xs ih =>
    rw [List.map_cons, List.lookup_cons]
    by_cases hax : a = x
    · have hbeq : (a == x) = true := by rw [beq_iff_eq]; exact hax
      rw [hbeq, if_pos (by simp [hax])]
    · have hbeq : (a == x) = false := by rw [beq_eq_false_iff_ne]; exact hax
      rw [hbeq]
      simp only
      rw [ih]
      by_cases hmem : a ∈ xs
      · rw [if_pos hmem, if_pos (List.mem_cons_of_mem _ hmem)]
      · rw [if_neg hmem, if_neg (by simp [hax, hmem])]

theorem lookup_append_cases {β : Type _} (l1 l2 : List (String × β)) (a : String) :
    (l1 ++ l2).lookup a =
      match l1.lookup a with
      | some v => some v
      | none => l2.lookup a := by
  induction l1 with
  | nil => rfl
  | cons e rest ih =>
    obtain ⟨k, b⟩ := e
    rw [List.cons_append, List.lookup_cons, List.lookup_cons]
    cases hbeq : a == k with
    | true => rfl
    | false => exact ih

theorem firstDedupGo_mem (a : String) :
    ∀ (l seen : List String), a ∈ firstDedupGo seen l ↔ (a ∈ l ∧ a ∉ seen) := by
  intro l
  induction l with
  | nil =>
    intro seen
    simp [firstDedupGo]
  | cons x xs ih =>
    intro seen
    rw [firstDedupGo]
    by_cases hx : x ∈ seen
    · rw [if_pos hx, ih]
      constructor
      · rintro ⟨h1, h2⟩
        exact ⟨List.mem_cons_of_mem _ h1, h2⟩
      · rintro ⟨h1, h2⟩
        rcases List.mem_cons.mp h1 with rfl | h3
        · exact absurd hx h2
        · exact ⟨h3, h2⟩
    · rw [if_neg hx]
      constructor
      · intro h
        rcases List.mem_cons.mp h with rfl | h3
        · exact ⟨List.mem_cons_self _ _, hx⟩
        · have := (ih (x :: seen)).mp h3
          exact ⟨List.mem_cons_of_mem _ this.1,
            fun hmem => this.2 (List.mem_cons_of_mem _ hmem)⟩
      · rintro ⟨h1, h2⟩
        rcases List.mem_cons.mp h1 with rfl | h3
        · exact List.mem_cons_self _ _
        · by_cases hax : a = x
          · rw [hax]
            exact List.mem_cons_self _ _
          · apply List.mem_cons_of_mem
            rw [ih (x :: seen)]
            exact ⟨h3, by simp [hax, h2]⟩

theorem firstDedup_mem (a : String) (l : List String) :
    a ∈ firstDedup l ↔ a ∈ l := by
  rw [firstDedup, firstDedupGo_mem]
  simp

theorem firstDedupGo_nodup :
    ∀ (l seen : List String), (firstDedupGo seen l).Nodup := by
  intro l
  induction l with
  | nil =>
    intro seen
    simp [firstDedupGo]
  | cons x xs ih =>
    intro seen
    rw [firstDedupGo]
    by_cases hx : x ∈ seen
    · rw [if_pos hx]
      exact ih seen
    · rw [if_neg hx]
      rw [List.nodup_cons]
      refine ⟨?_, ih (x :: seen)⟩
      intro hmem
      have := (firstDedupGo_mem x xs (x :: seen)).mp hmem
      exact this.2 (List.mem_cons_self _ _)

theorem firstDedup_nodup (l : List String) : (firstDedup l).Nodup :=
  firstDedupGo_nodup l []

theorem collectOpcodes_mem (targets : List (List WbBlock)) (s : String) :
    s ∈ collectOpcodes targets ↔
      (s ≠ "" ∧ ∃ t ∈ targets, ∃ b ∈ t, b.opcode = some s) := by
  unfold collectOpcodes
  rw [List.mem_flatten]
  constructor
  · rintro ⟨l, hl, hsl⟩
    obtain ⟨t, ht, rfl⟩ := List.mem_map.mp hl
    obtain ⟨b, hb, hfb⟩ := List.mem_filterMap.mp hsl
    cases hop : b.opcode with
    | none =>
      rw [hop] at hfb
      exact absurd hfb (by simp)
    | some s2 =>
      rw [hop] at hfb
      simp only at hfb
      by_cases hs2 : s2 = ""
      · rw [if_pos hs2] at hfb
        exact absurd hfb (by simp)
      · rw [if_neg hs2] at hfb
        injection hfb with hfb2
        subst hfb2
        exact ⟨hs2, t, ht, b, hb, hop⟩
  · rintro ⟨hne, t, ht, b, hb, hop⟩
    refine ⟨t.filterMap _, List.mem_map.mpr ⟨t, ht, rfl⟩, ?_⟩
    apply List.mem_filterMap.mpr
    refine ⟨b, hb, ?_⟩
    rw [hop]
    simp only
    rw [if_neg hne]

theorem genLoop_spec : ∀ (fuel : Nat) (used : List String) (rng : List Nat) (need : Nat)
    (acc aliases used2 : List String) (rng2 : List Nat),
    genLoop used fuel rng need acc = some (aliases, used2, rng2) →
    ∃ fresh, aliases = acc.reverse ++ fresh ∧ used2 = fresh.reverse ++ used ∧
      fresh.Nodup ∧ (∀ a ∈ fresh, a ∉ used ∧ AliasShaped a) ∧ fresh.length = need := by
  intro fuel
  induction fuel with
  | zero =>
    intro used rng need acc aliases used2 rng2 h
    match need with
    | 0 =>
      rw [genLoop] at h
      injection h with h2
      injection h2 with ha h3
      injection h3 with hu hr
      refine ⟨[], by rw [List.append_nil, ha], by simp [hu], List.nodup_nil, by simp, rfl⟩
    | n + 1 =>
      rw [genLoop] at h
      exact absurd h (by simp)
  | succ f ih =>
    intro used rng need acc aliases used2 rng2 h
    match need with
    | 0 =>
      rw [genLoop] at h
      injection h with h2
      injection h2 with ha h3
      injection h3 with hu hr
      refine ⟨[], by rw [List.append_nil, ha], by simp [hu], List.nodup_nil, by simp, rfl⟩
    | n + 1 =>
      rw [genLoop] at h
      by_cases h8 : 8 ≤ rng.length
      · rw [if_pos h8] at h
        by_cases hc : randomOpcodeAlias (rng.take 8) ∈ used
        · rw [if_pos hc] at h
          exact ih used (rng.drop 8) (n + 1) acc aliases used2 rng2 h
        · rw [if_neg hc] at h
          obtain ⟨fresh2, ha, hu, hnd, hmem, hlen⟩ :=
            ih (randomOpcodeAlias (rng.take 8) :: used) (rng.drop 8) n
              (randomOpcodeAlias (rng.take 8) :: acc) aliases used2 rng2 h
          refine ⟨randomOpcodeAlias (rng.take 8) :: fresh2, ?_, ?_, ?_, ?_, ?_⟩
          · rw [ha, List.reverse_cons, List.append_assoc, List.singleton_append]
          · rw [hu, List.reverse_cons, List.append_assoc, List.singleton_append]
          · rw [List.nodup_cons]
            refine ⟨?_, hnd⟩
            intro hcontra
            exact (hmem _ hcontra).1 (List.mem_cons_self _ _)
          · intro a hmem2
            rcases List.mem_cons.mp hmem2 with rfl | h3
            · exact ⟨hc, ⟨rng.take 8, rfl⟩⟩
            · exact ⟨fun h4 => (hmem a h3).1 (List.mem_cons_of_mem _ h4), (hmem a h3).2⟩
          · rw [List.length_cons, hlen]
      · rw [if_neg h8] at h
        exact absurd h (by simp)

/-- All aliases recorded by `genAll`, in insertion order. -/
def aliasKeys (abr : List (String × List String)) : List String :=
  (abr.map (fun p => p.2)).flatten

theorem genAll_spec : ∀ (reals : List String) (used : List String) (rng : List Nat)
    (abr : List (String × List String)) (used3 : List String) (rng3 : List Nat),
    genAll used rng reals = some (abr, used3, rng3) →
    abr.map Prod.fst = reals ∧
      (∀ p ∈ abr, p.2 ≠ []) ∧
      (aliasKeys abr).Nodup ∧
      (∀ a ∈ aliasKeys abr, a ∉ used ∧ AliasShaped a) ∧
      (∃ pre, used3 = pre ++ used ∧ ∀ a, a ∈ pre ↔ a ∈ aliasKeys abr) := by
  intro reals
  induction reals with
  | nil =>
    intro used rng abr used3 rng3 h
    rw [genAll] at h
    injection h with h2
    injection h2 with ha h3
    injection h3 with hu hr
    subst ha
    refine ⟨rfl, by simp, by simp [aliasKeys], by simp [aliasKeys], [], by simp [hu], by simp [aliasKeys]⟩
  | cons real rest ih =>
    intro used rng abr used3 rng3 h
    rw [genAll.eq_def] at h
    simp only at h
    cases rng with
    | nil => exact absurd h (by simp)
    | cons c rng2 =>
      simp only at h
      cases hgl : genLoop used rng2.length rng2 (2 + c % 3) [] with
      | none =>
        rw [hgl] at h
        exact absurd h (by simp)
      | some glr =>
        obtain ⟨aliases, used2, rng3a⟩ := glr
        rw [hgl] at h
        simp only at h
        cases hga : genAll used2 rng3a rest with
        | none =>
          rw [hga] at h
          exact absurd h (by simp)
        | some gar =>
          obtain ⟨abr2, used3b, rng4⟩ := gar
          rw [hga] at h
          simp only at h
          injection h with h2
          injection h2 with habr h3
          injection h3 with hused3 hrng3
          obtain ⟨fresh, hfa, hfu, hfnd, hfmem, hflen⟩ :=
            genLoop_spec rng2.length used rng2 (2 + c % 3) [] aliases used2 rng3a hgl
          rw [List.reverse_nil, List.nil_append] at hfa
          subst hfa
          obtain ⟨hmap, hne, hnd2, hmem2, pre2, hpre2, hpre2mem⟩ :=
            ih used2 rng3a abr2 used3b rng4 hga
          subst habr
          have hkeys : aliasKeys ((real, aliases) :: abr2) = aliases ++ aliasKeys abr2 := by
            simp [aliasKeys]
          refine ⟨?_, ?_, ?_, ?_, ?_⟩
          · rw [List.map_cons, hmap]
          · intro p hp
            rcases List.mem_cons.mp hp with rfl | h4
            · apply List.ne_nil_of_length_pos
              simp only [hflen]
              omega
            · exact hne p h4
          · rw [hkeys, List.nodup_append]
            refine ⟨hfnd, hnd2, ?_⟩
            intro a ha1 ha2
            have h5 := (hmem2 a ha2).1
            rw [hfu] at h5
            exact h5 (List.mem_append.mpr (Or.inl (List.mem_reverse.mpr ha1)))
          · intro a ha
            rw [hkeys] at ha
            rcases List.mem_append.mp ha with h4 | h4
            · exact hfmem a h4
            · have h5 := hmem2 a h4
              refine ⟨?_, h5.2⟩
              intro hcontra
              apply h5.1
              rw [hfu]
              exact List.mem_append.mpr (Or.inr hcontra)
          · refine ⟨pre2 ++ aliases.reverse, ?_, ?_⟩
            · rw [← hused3, hpre2, hfu, List.append_assoc]
            · intro a
              rw [hkeys]
              constructor
              · intro h4
                rcases List.mem_append.mp h4 with h5 | h5
                · exact List.mem_append.mpr (Or.inr ((hpre2mem a).mp h5))
                · exact List.mem_append.mpr (Or.inl (List.mem_reverse.mp h5))
              · intro h4
                rcases List.mem_append.mp h4 with h5 | h5
                · exact List.mem_append.mpr (Or.inr (List.mem_reverse.mpr h5))
                · exact List.mem_append.mpr (Or.inl ((hpre2mem a).mpr h5))

theorem opMap_keys (abr : List (String × List String)) :
    (opMapOf abr).map Prod.fst = aliasKeys abr := by
  induction abr with
  | nil => rfl
  | cons p abr2 ih =>
    obtain ⟨r0, as0⟩ := p
    simp only [opMapOf, aliasKeys, List.map_cons, List.flatten_cons, List.map_append,
      List.map_map] at ih ⊢
    rw [ih]
    congr 1
    exact List.map_id as0

theorem opMap_lookup (a real : String) (aliases : List String) :
    ∀ (abr : List (String × List String)), (aliasKeys abr).Nodup →
      (real, aliases) ∈ abr → a ∈ aliases →
      (opMapOf abr).lookup a = some real := by
  intro abr
  induction abr with
  | nil =>
    intro _ hmem _
    exact absurd hmem (List.not_mem_nil _)
  | cons p abr2 ih =>
    obtain ⟨r0, as0⟩ := p
    intro hnd hmem ha
    have hopm : opMapOf ((r0, as0) :: abr2) =
        (as0.map (fun x => (x, r0))) ++ opMapOf abr2 := by
      simp [opMapOf]
    have hkeys : aliasKeys ((r0, as0) :: abr2) = as0 ++ aliasKeys abr2 := by
      simp [aliasKeys]
    rw [hkeys, List.nodup_append] at hnd
    rw [hopm, lookup_append_cases]
    rcases List.mem_cons.mp hmem with heq | htail
    · injection heq with h1 h2
      subst h1
      subst h2
      rw [lookup_map_self, if_pos ha]
    · have ha2 : a ∈ aliasKeys abr2 := by
        apply List.mem_flatten.mpr
        exact ⟨aliases, List.mem_map.mpr ⟨(real, aliases), htail, rfl⟩, ha⟩
      have hnas0 : a ∉ as0 := fun hc => hnd.2.2 hc ha2
      rw [lookup_map_self, if_neg hnas0]
      exact ih hnd.2.1 htail ha

/-- What one step of the replacement loop guarantees about the old and
new block. -/
def BlockRel (abr : List (String × List String)) (b b2 : WbBlock) : Prop :=
  (b.opcode = none → b2 = b) ∧
  (∀ s, b.opcode = some s →
    ((abr.lookup s = none ∧ b2 = b) ∨
     (∃ aliases a, abr.lookup s = some aliases ∧ a ∈ aliases ∧
       b2 = { opcode := some a, payload := b.payload })))

theorem replaceBlock_spec (abr : List (String × List String))
    (hne : ∀ p ∈ abr, p.2 ≠ []) (b : WbBlock) (rng : List Nat)
    (b2 : WbBlock) (rng2 : List Nat)
    (h : replaceBlock abr b rng = some (b2, rng2)) : BlockRel abr b b2 := by
  unfold replaceBlock at h
  cases hop : b.opcode with
  | none =>
    rw [hop] at h
    simp only at h
    injection h with h2
    injection h2 with hb hr
    constructor
    · intro _
      exact hb.symm
    · intro s hs
      rw [hop] at hs
      exact absurd hs (by simp)
  | some s =>
    rw [hop] at h
    simp only at h
    cases hlk : abr.lookup s with
    | none =>
      rw [hlk] at h
      simp only at h
      injection h with h2
      injection h2 with hb hr
      constructor
      · intro hcontra
        rw [hop] at hcontra
        exact absurd hcontra (by simp)
      · intro s2 hs2
        rw [hop] at hs2
        injection hs2 with hseq
        subst hseq
        exact Or.inl ⟨hlk, hb.symm⟩
    | some aliases =>
      rw [hlk] at h
      simp only at h
      cases rng with
      | nil => exact absurd h (by simp)
      | cons c rng2a =>
        simp only at h
        injection h with h2
        injection h2 with hb hr
        constructor
        · intro hcontra
          rw [hop] at hcontra
          exact absurd hcontra (by simp)
        · intro s2 hs2
          rw [hop] at hs2
          injection hs2 with hseq
          subst hseq
          right
          have hnen : aliases ≠ [] := hne _ (lookup_mem hlk)
          have hlen : 0 < aliases.length := List.length_pos.mpr hnen
          have hidx : c % aliases.length < aliases.length := Nat.mod_lt _ hlen
          refine ⟨aliases, aliases.getD (c % aliases.length) "", hlk, ?_, hb.symm⟩
          rw [List.getD_eq_getElem _ _ hidx]
          exact List.getElem_mem hidx

theorem replaceBlocks_spec (abr : List (String × List String)) :
    ∀ (bs : List WbBlock) (rng : List Nat) (bs2 : List WbBlock) (rng2 : List Nat),
      (∀ p ∈ abr, p.2 ≠ []) →
      replaceBlocks abr bs rng = some (bs2, rng2) →
      List.Forall₂ (BlockRel abr) bs bs2 := by
  intro bs
  induction bs with
  | nil =>
    intro rng bs2 rng2 _ h
    rw [replaceBlocks] at h
    injection h with h2
    injection h2 with hb hr
    subst hb
    exact List.Forall₂.nil
  | cons b bs ih =>
    intro rng bs2 rng2 hne h
    rw [replaceBlocks] at h
    cases hrb : replaceBlock abr b rng with
    | none =>
      rw [hrb] at h
      exact absurd h (by simp)
    | some br =>
      obtain ⟨b2, rngA⟩ := br
      rw [hrb] at h
      simp only at h
      cases hrbs : replaceBlocks abr bs rngA with
      | none =>
        rw [hrbs] at h
        exact absurd h (by simp)
      | some bsr =>
        obtain ⟨bs3, rngB⟩ := bsr
        rw [hrbs] at h
        simp only at h
        injection h with h2
        injection h2 with hb hr
        subst hb
        exact List.Forall₂.cons (replaceBlock_spec abr hne b rng b2 rngA hrb)
          (ih rngA bs3 rngB hne hrbs)

theorem replaceTargets_spec (abr : List (String × List String)) :
    ∀ (ts : List (List WbBlock)) (rng : List Nat) (ts2 : List (List WbBlock))
      (rng2 : List Nat),
      (∀ p ∈ abr, p.2 ≠ []) →
      replaceTargets abr ts rng = some (ts2, rng2) →
      List.Forall₂ (List.Forall₂ (BlockRel abr)) ts ts2 := by
  intro ts
  induction ts with
  | nil =>
    intro rng ts2 rng2 _ h
    rw [replaceTargets] at h
    injection h with h2
    injection h2 with hb hr
    subst hb
    exact List.Forall₂.nil
  | cons blocks ts ih =>
    intro rng ts2 rng2 hne h
    rw [replaceTargets] at h
    cases hrb : replaceBlocks abr blocks rng with
    | none =>
      rw [hrb] at h
      exact absurd h (by simp)
    | some br =>
      obtain ⟨blocks2, rngA⟩ := br
      rw [hrb] at h
      simp only at h
      cases hrt : replaceTargets abr ts rngA with
      | none =>
        rw [hrt] at h
        exact absurd h (by simp)
      | some tr =>
        obtain ⟨ts3, rngB⟩ := tr
        rw [hrt] at h
        simp only at h
        injection h with h2
        injection h2 with hb hr
        subst hb
        exact List.Forall₂.cons (replaceBlocks_spec abr blocks rng blocks2 rngA hne hrb)
          (ih rngA ts3 rngB hne hrt)

theorem forall₂_imp_mem {α β : Type _} {R S : α → β → Prop} :
    ∀ {l1 : List α} {l2 : List β}, List.Forall₂ R l1 l2 →
      (∀ a ∈ l1, ∀ b, R a b → S a b) → List.Forall₂ S l1 l2 := by
  intro l1 l2 h
  induction h with
  | nil =>
    intro _
    exact List.Forall₂.nil
  | cons hab htail ih =>
    intro hm
    exact List.Forall₂.cons (hm _ (List.mem_cons_self _ _) _ hab)
      (ih (fun a ha b => hm a (List.mem_cons_of_mem _ ha) b))

theorem map_eq_of_forall₂ {α β : Type _} (g : β → α) :
    ∀ {l1 : List α} {l2 : List β}, List.Forall₂ (fun a b => g b = a) l1 l2 →
      l2.map g = l1 := by
  intro l1 l2 h
  induction h with
  | nil => rfl
  | cons hab _ ih =>
    rw [List.map_cons, hab, ih]

theorem applyBlock_restores (abr : List (String × List String))
    (hnd : (aliasKeys abr).Nodup)
    (hshaped : ∀ a ∈ aliasKeys abr, AliasShaped a)
    (b b2 : WbBlock) (hrel : BlockRel abr b b2)
    (hcov : ∀ s, b.opcode = some s → s ≠ "" → s ∈ abr.map Prod.fst) :
    applyOpMapBlock (opMapOf abr) b2 = b := by
  obtain ⟨hnone, hsome⟩ := hrel
  cases hop : b.opcode with
  | none =>
    have hb2 := hnone hop
    rw [hb2]
    unfold applyOpMapBlock
    rw [hop]
  | some s =>
    rcases hsome s hop with ⟨hlkn, hb2⟩ | ⟨aliases, a, hlk, ha, hb2⟩
    · by_cases hse : s = ""
      · subst hse
        rw [hb2]
        unfold applyOpMapBlock
        rw [hop]
        simp only
        have hnm : "" ∉ (opMapOf abr).map Prod.fst := by
          rw [opMap_keys]
          intro hcontra
          exact aliasShaped_ne_empty (hshaped _ hcontra) rfl
        rw [lookup_eq_none_of_not_mem_keys hnm]
      · exfalso
        have hmem := hcov s hop hse
        obtain ⟨v, hv, _⟩ := lookup_some_of_mem_keys hmem
        rw [hlkn] at hv
        exact absurd hv (by simp)
    · rw [hb2]
      unfold applyOpMapBlock
      simp only
      rw [opMap_lookup a s aliases abr hnd (lookup_mem hlk) ha]
      cases b with
      | mk op pay =>
        simp only at hop ⊢
        rw [hop]

/-- C9: when `obfuscateProjectOpcodes` completes, the returned
`wbOpcodeMap.map` has pairwise-distinct alias keys, none of which occurs
as an opcode in the original project; every block whose original opcode
was a non-empty string carries an alias that the map sends back to that
opcode (payloads untouched); and applying the map to every block opcode
of the result restores the original targets exactly. -/
theorem claim_C9_opcode_obfuscation_roundtrip (targets : List (List WbBlock))
    (rng : List Nat) (newTargets : List (List WbBlock))
    (opMap : List (String × String))
    (hrun : obfuscateProjectOpcodes targets rng = some (newTargets, opMap)) :
    (opMap.map Prod.fst).Nodup ∧
      (∀ a ∈ opMap.map Prod.fst, ∀ t ∈ targets, ∀ b ∈ t, b.opcode ≠ some a) ∧
      List.Forall₂ (List.Forall₂ (fun b b2 => b2.payload = b.payload ∧
        (∀ s, b.opcode = some s → s ≠ "" →
          ∃ a, b2.opcode = some a ∧ a ∈ opMap.map Prod.fst ∧
            opMap.lookup a = some s))) targets newTargets ∧
      applyOpMap opMap newTargets = targets := by
  unfold obfuscateProjectOpcodes at hrun
  simp only at hrun
  cases hga : genAll (firstDedup (collectOpcodes targets)) rng
      (firstDedup (collectOpcodes targets)) with
  | none =>
    rw [hga] at hrun
    exact absurd hrun (by simp)
  | some gr =>
    obtain ⟨abr, used3, rng2⟩ := gr
    rw [hga] at hrun
    simp only at hrun
    cases hrt : replaceTargets abr targets rng2 with
    | none =>
      rw [hrt] at hrun
      exact absurd hrun (by simp)
    | some rr =>
      obtain ⟨targets2, rngEnd⟩ := rr
      rw [hrt] at hrun
      simp only at hrun
      injection hrun with h2
      injection h2 with hT hM
      subst hT
      subst hM
      obtain ⟨hmap, hne, hnd, hmem, _⟩ := genAll_spec _ _ _ _ _ _ hga
      have hF2 := replaceTargets_spec abr targets rng2 targets2 rngEnd hne hrt
      have hcovAll : ∀ t ∈ targets, ∀ b ∈ t, ∀ s, b.opcode = some s → s ≠ "" →
          s ∈ abr.map Prod.fst := by
        intro t ht b hb s hs hne2
        rw [hmap, firstDedup_mem]
        exact (collectOpcodes_mem targets s).mpr ⟨hne2, t, ht, b, hb, hs⟩
      refine ⟨?_, ?_, ?_, ?_⟩
      · rw [opMap_keys]
        exact hnd
      · intro a ha t ht b hb hcontra
        rw [opMap_keys] at ha
        have h5 := hmem a ha
        apply h5.1
        rw [firstDedup_mem]
        exact (collectOpcodes_mem targets a).mpr
          ⟨aliasShaped_ne_empty h5.2, t, ht, b, hb, hcontra⟩
      · refine forall₂_imp_mem hF2 ?_
        intro t ht blocks2 hF2t
        refine forall₂_imp_mem hF2t ?_
        intro b hbmem b2 hrel
        constructor
        · cases hop : b.opcode with
          | none => rw [hrel.1 hop]
          | some s =>
            rcases hrel.2 s hop with ⟨_, hb2⟩ | ⟨as2, a2, _, _, hb2⟩
            · rw [hb2]
            · rw [hb2]
        · intro s hs hsne
          rcases hrel.2 s hs with ⟨hlkn, _⟩ | ⟨aliases, a, hlk, ha, hb2⟩
          · exfalso
            have hmem2 := hcovAll t ht b hbmem s hs hsne
            obtain ⟨v, hv, _⟩ := lookup_some_of_mem_keys hmem2
            rw [hlkn] at hv
            exact absurd hv (by simp)
          · refine ⟨a, by rw [hb2], ?_, ?_⟩
            · rw [opMap_keys]
              exact List.mem_flatten.mpr
                ⟨aliases, List.mem_map.mpr ⟨(s, aliases), lookup_mem hlk, rfl⟩, ha⟩
            · exact opMap_lookup a s aliases abr hnd (lookup_mem hlk) ha
      · unfold applyOpMap
        apply map_eq_of_forall₂
        refine forall₂_imp_mem hF2 ?_
        intro t ht blocks2 hF2t
        apply map_eq_of_forall₂
        refine forall₂_imp_mem hF2t ?_
        intro b hb b2 hrel
        exact applyBlock_restores abr hnd (fun a ha => (hmem a ha).2) b b2 hrel
          (fun s hs hsne => hcovAll t ht b hb s hs hsne)

def c9Targets : List (List WbBlock) :=
  [[⟨some "motion_move", 0⟩, ⟨none, 1⟩, ⟨some "", 2⟩]]

def c9Rng : List Nat := [0] ++ List.replicate 8 1 ++ List.replicate 8 2 ++ [0]

def c9New : List (List WbBlock) :=
  [[⟨some "op0101010101010101", 0⟩, ⟨none, 1⟩, ⟨some "", 2⟩]]

def c9Map : List (String × String) :=
  [("op0101010101010101", "motion_move"), ("op0202020202020202", "motion_move")]

theorem claim_C9_witness :
    (c9Map.map Prod.fst).Nodup ∧
      (∀ a ∈ c9Map.map Prod.fst, ∀ t ∈ c9Targets, ∀ b ∈ t, b.opcode ≠ some a) ∧
      List.Forall₂ (List.Forall₂ (fun b b2 => b2.payload = b.payload ∧
        (∀ s, b.opcode = some s → s ≠ "" →
          ∃ a, b2.opcode = some a ∧ a ∈ c9Map.map Prod.fst ∧
            c9Map.lookup a = some s))) c9Targets c9New ∧
      applyOpMap c9Map c9New = c9Targets :=
  claim_C9_opcode_obfuscation_roundtrip c9Targets c9Rng c9New c9Map (by decide)

end WbPacker
